import Mathlib

/-!
Verification of the photobak repository engine against its specification.

The definitions below are a shallow embedding of the Go source:

* the pointer-manifest rewrite (`replaceInMediaListFile` in part_000),
* the unique-filename reservation loop (`reserveUniqueFilename` in part_006),
* the prune directory-removal guard (`deleteCollection` in prune.go),
* the worker-count arithmetic of `Store` (part_006),
* the bolt index operations (`saveItem`, `deleteItem`,
  `removeItemFromChecksumIndex`, `addItemToCollection` in part_003),
* the path helpers (`repoRelative`, `fullPath` in part_006, with Go
  `path/filepath` lexical cleaning), and
* the download-and-commit pipeline (`processItem` / `downloadAndSaveItem`
  in part_006) with explicit state passing and injected step outcomes.

Filesystem state is modelled as the set (list) of existing paths; the
database is modelled as association lists mirroring the bolt buckets.
-/

namespace Photobak

/-! ## Pointer manifest: replaceInMediaListFile (part_000, lines 32-86)

The Go function scans the manifest line by line into a temp file:
a line equal to `oldPath` is replaced by `newPath` (dropped entirely when
`newPath` is empty); every other line is copied unchanged.  The temp file
is renamed over the original (modelled here as atomic replacement of the
contents); if no line was written the file is removed; a missing manifest
file is a successful no-op. -/

/-- The line-by-line rewrite performed by the scanner loop of
`replaceInMediaListFile`. -/
def replaceLines (oldPath newPath : String) : List String → List String
  | [] => []
  | line :: rest =>
      if line = oldPath then
        if newPath = "" then replaceLines oldPath newPath rest
        else newPath :: replaceLines oldPath newPath rest
      else line :: replaceLines oldPath newPath rest

/-- `replaceInMediaListFile` at the level of manifest contents.
`none` models a missing `others.txt` file; `some lines` a present file
with the given lines.  The `wroteAtLeastOneEntry` flag of the source is
true exactly when the rewritten line list is nonempty; when it is false
the file is deleted after the rename. -/
def replaceInMediaListFile (manifest : Option (List String)) (oldPath newPath : String) :
    Option (List String) :=
  match manifest with
  | none => none
  | some lines =>
      let out := replaceLines oldPath newPath lines
      if out = [] then none else some out

theorem replaceLines_eq_filterMap (oldPath newPath : String) (lines : List String) :
    replaceLines oldPath newPath lines =
      lines.filterMap (fun line =>
        if line = oldPath then (if newPath = "" then none else some newPath)
        else some line) := by
  induction lines with
  | nil => rfl
  | cons l rest ih =>
      by_cases hl : l = oldPath
      · by_cases hn : newPath = ""
        · subst hn; simp [replaceLines, hl, List.filterMap_cons, ih]
        · simp [replaceLines, hl, hn, List.filterMap_cons, ih]
      · simp [replaceLines, hl, List.filterMap_cons, ih]

/-- C3: manifest replace semantics.  A missing manifest is a no-op
returning success; every line equal to `oldPath` becomes `newPath`
(dropped when `newPath` is empty) while all other lines are preserved
unchanged and in order (the `filterMap` characterisation); the file is
deleted exactly when zero lines remain after the rewrite, and otherwise
the rewritten contents are committed. -/
theorem manifest_replace_semantics (oldPath newPath : String) :
    (replaceInMediaListFile none oldPath newPath = none) ∧
    (∀ lines : List String,
      replaceLines oldPath newPath lines =
        lines.filterMap (fun line =>
          if line = oldPath then (if newPath = "" then none else some newPath)
          else some line)) ∧
    (∀ lines : List String,
      replaceInMediaListFile (some lines) oldPath newPath =
        (if replaceLines oldPath newPath lines = [] then none
         else some (replaceLines oldPath newPath lines))) := by
  refine ⟨rfl, fun lines => replaceLines_eq_filterMap _ _ lines, fun lines => rfl⟩

/-- Witness for C3 at concrete inputs: replacing the path a in the
manifest with lines a, b rewrites a to c and keeps b; removing both
lines of a manifest holding a, a deletes the file; a missing file is
untouched. -/
theorem manifest_replace_semantics_witness :
    replaceInMediaListFile (some ["a", "b"]) "a" "c" = some ["c", "b"] ∧
    replaceInMediaListFile (some ["a", "a"]) "a" "" = none ∧
    replaceInMediaListFile none "a" "c" = none := by
  refine ⟨?_, ?_, (manifest_replace_semantics "a" "c").1⟩
  · have h := ((manifest_replace_semantics "a" "c").2.2 ["a", "b"])
    simpa [replaceLines] using h
  · have h := ((manifest_replace_semantics "a" "").2.2 ["a", "a"])
    simpa [replaceLines] using h

/-- C4 counterexample: the pointer-rewrite composition law fails as
stated when the manifest already contains the intermediate path `b`.
With contents `["b"]`, rewriting a to b leaves the line, and the second
rewrite b to c turns it into c, whereas the single rewrite a to c leaves
b untouched. -/
theorem pointer_rewrite_compose_counterexample :
    replaceLines "b" "c" (replaceLines "a" "b" ["b"]) = ["c"] ∧
    replaceLines "a" "c" ["b"] = ["b"] ∧
    replaceLines "b" "c" (replaceLines "a" "b" ["b"]) ≠ replaceLines "a" "c" ["b"] := by
  refine ⟨by simp [replaceLines], by simp [replaceLines], ?_⟩
  simp [replaceLines]

theorem replaceLines_compose (a b c : String) (M : List String)
    (hmem : b ∉ M) (hb : b ≠ "") :
    replaceLines b c (replaceLines a b M) = replaceLines a c M := by
  induction M with
  | nil => rfl
  | cons l rest ih =>
      have hrest : b ∉ rest := fun h => hmem (List.mem_cons_of_mem _ h)
      have hlb : l ≠ b := fun h => hmem (h ▸ List.mem_cons_self _ _)
      by_cases hla : l = a
      · by_cases hc : c = ""
        · subst hc; simp [replaceLines, hla, hb, ih hrest]
        · simp [replaceLines, hla, hb, hc, ih hrest]
      · simp [replaceLines, hla, hlb, ih hrest]

/-- C4 amended: the composition law
`replace (replace M a b) b c = replace M a c` holds for manifest
contents `M` provided the intermediate path `b` does not already occur
as a line of `M` and `b` is not the empty string.  It holds both at the
contents level and at the file level (including deletion when the
rewrite empties the manifest). -/
theorem pointer_rewrite_compose (a b c : String) (M : List String)
    (hmem : b ∉ M) (hb : b ≠ "") :
    replaceLines b c (replaceLines a b M) = replaceLines a c M ∧
    replaceInMediaListFile (replaceInMediaListFile (some M) a b) b c =
      replaceInMediaListFile (some M) a c := by
  have hlines := replaceLines_compose a b c M hmem hb
  refine ⟨hlines, ?_⟩
  unfold replaceInMediaListFile
  by_cases h1 : replaceLines a b M = []
  · have h2 : replaceLines a c M = [] := by
      rw [← hlines, h1]; rfl
    simp [h1, h2]
  · simp only [h1, if_neg h1]
    by_cases h2 : replaceLines b c (replaceLines a b M) = []
    · have h3 : replaceLines a c M = [] := by rw [← hlines]; exact h2
      simp [replaceInMediaListFile, h2, h3]
    · have h3 : replaceLines a c M ≠ [] := by rw [← hlines]; exact h2
      simp [replaceInMediaListFile, h2, h3, hlines]

/-- Witness for the amended C4 at concrete inputs: with manifest
contents a, x and distinct nonblank paths, the two-step rewrite equals
the one-step rewrite. -/
theorem pointer_rewrite_compose_witness :
    ("b" ∉ ["a", "x"] ∧ "b" ≠ "") ∧
    replaceLines "b" "c" (replaceLines "a" "b" ["a", "x"]) =
      replaceLines "a" "c" ["a", "x"] := by
  have h := pointer_rewrite_compose "a" "b" "c" ["a", "x"] (by decide) (by decide)
  exact ⟨⟨by decide, by decide⟩, h.1⟩

/-! ## Lexical path cleaning (Go `path/filepath`, unix separators)

`repoRelative` and `fullPath` (part_006, lines 799-816) are built on
`filepath.Clean`, `filepath.Join` and `strings.TrimPrefix`.  The
cleaning algorithm is modelled on character lists: split on the
separator, process segments (drop empty and dot segments, resolve
dot-dot against the output stack, keep leading dot-dot for relative
paths, drop it at the root for rooted paths), and re-join. -/

/-- Split a character list on the separator. Always returns a nonempty
list of segments. -/
def splitSegs : List Char → List (List Char)
  | [] => [[]]
  | c :: rest =>
      if c = '/' then [] :: splitSegs rest
      else
        match splitSegs rest with
        | [] => [[c]]
        | s :: tail => (c :: s) :: tail

/-- Segment processing of Go `path.Clean`: `out` is the reversed stack
of emitted segments.  Empty and dot segments are dropped; dot-dot pops a
regular segment off the stack, is dropped at the root of a rooted path,
and is kept at the front of a relative path. -/
def cleanSegs (rooted : Bool) (out : List (List Char)) :
    List (List Char) → List (List Char)
  | [] => out.reverse
  | seg :: rest =>
      if seg = [] ∨ seg = ['.'] then cleanSegs rooted out rest
      else if seg = ['.', '.'] then
        match out with
        | [] => if rooted then cleanSegs rooted [] rest else cleanSegs rooted [seg] rest
        | top :: out2 =>
            if top = ['.', '.'] then cleanSegs rooted (seg :: out) rest
            else cleanSegs rooted out2 rest
      else cleanSegs rooted (seg :: out) rest

/-- Join segments with the separator. -/
def joinSegs : List (List Char) → List Char
  | [] => []
  | [s] => s
  | s :: rest => s ++ '/' :: joinSegs rest

/-- Go `filepath.Clean` (unix). -/
def cleanChars (l : List Char) : List Char :=
  match l with
  | [] => ['.']
  | c :: _ =>
      if c = '/' then '/' :: joinSegs (cleanSegs true [] (splitSegs l))
      else
        match cleanSegs false [] (splitSegs l) with
        | [] => ['.']
        | s :: tail => joinSegs (s :: tail)

/-- Go `filepath.Clean` on strings. -/
def clean (s : String) : String := ⟨cleanChars s.data⟩

/-- Go `filepath.Join` of two elements: empty elements are ignored and
the result is cleaned; all elements empty gives the empty string. -/
def goJoin (a b : String) : String :=
  if a = "" ∧ b = "" then ""
  else if a = "" then clean b
  else if b = "" then clean a
  else clean (a ++ "/" ++ b)

/-- Go `strings.TrimPrefix`. -/
def trimPrefix (s pre : String) : String :=
  if pre.data.isPrefixOf s.data then ⟨s.data.drop pre.data.length⟩ else s

/-- `Repository.repoRelative` (part_006, lines 799-807): trim the
cleaned repository path plus separator off the front of a full path. -/
def repoRelative (repoPath fpath : String) : String :=
  trimPrefix fpath (clean repoPath ++ "/")

/-- `Repository.fullPath` (part_006, lines 809-816): join the repository
path with a repo-relative path. -/
def fullPath (repoPath rel : String) : String := goJoin repoPath rel

/-! ## reserveUniqueFilename (part_006, lines 511-568)

The in-memory serialisation on the `itemNames` map is concurrency and is
not modelled; the candidate search and on-disk reservation are.  The
filesystem is a predicate `ex` giving which (repo-relative) paths exist.
The function returns the pair of the chosen candidate name and the
(repo-relative) path at which the placeholder is created - in the Go
source these are `candidate` and `candidatePath`, and the placeholder is
created at `fullPath(candidatePath)`. -/

/-- Decimal digit character. -/
def digitChar (n : Nat) : Char := Char.ofNat (48 + n)

/-- Go `fmt.Sprintf` with the zero-padded width-3 decimal verb, for
arguments below 1000 (the loop uses 2..999 only). -/
def fmt3 (i : Nat) : String :=
  ⟨[digitChar (i / 100 % 10), digitChar (i / 10 % 10), digitChar (i % 10)]⟩

/-- Split a character list at the first dot, as
`strings.SplitN(s, dot, 2)`: `none` when there is no dot, otherwise the
parts before and after the first dot. -/
def splitFirstDot : List Char → Option (List Char × List Char)
  | [] => none
  | c :: rest =>
      if c = '.' then some ([], rest)
      else
        match splitFirstDot rest with
        | none => none
        | some (pre, post) => some (c :: pre, post)

/-- The numbered candidate derived from the original target name: with
an extension the counter is spliced before the first dot, without one it
is appended. -/
def candidateName (targetName : String) (i : Nat) : String :=
  match splitFirstDot targetName.data with
  | none => targetName ++ "-" ++ fmt3 i
  | some (base, ext) => ⟨base⟩ ++ "-" ++ fmt3 i ++ "." ++ ⟨ext⟩

/-- The candidate-search loop of `reserveUniqueFilename`.  State:
remaining fuel (iterations of `i = 2..999`), the loop counter `i`, the
current candidate, and the last computed candidate path.  On a free
candidate the loop breaks; when fuel runs out the loop falls through
with the final candidate and the previously computed path, exactly as
the Go `for` loop does. -/
def reserveLoop (ex : String → Bool) (dir targetName : String) :
    Nat → Nat → String → String → String × String
  | 0, _, candidate, candidatePath => (candidate, candidatePath)
  | fuel + 1, i, candidate, _ =>
      let cp := goJoin dir candidate
      if ex cp then
        reserveLoop ex dir targetName fuel (i + 1) (candidateName targetName i) cp
      else (candidate, cp)

/-- `reserveUniqueFilename`: the loop runs for `i = 2..999` (998
iterations) starting from the original target name.  The result is the
returned candidate name and the path at which the placeholder file or
directory is created. -/
def reserveUniqueFilename (ex : String → Bool) (dir targetName : String) : String × String :=
  reserveLoop ex dir targetName 998 2 targetName (goJoin dir targetName)

/-- The candidates examined by `reserveLoop` in order. -/
def reserveCandidates (targetName : String) : Nat → Nat → String → List String
  | 0, _, _ => []
  | fuel + 1, i, candidate =>
      candidate :: reserveCandidates targetName fuel (i + 1) (candidateName targetName i)

theorem reserveCandidates_succ (targetName : String) (fuel i : Nat) (c : String) :
    reserveCandidates targetName (fuel + 1) i c =
      c :: (List.range' i fuel).map (candidateName targetName) := by
  induction fuel generalizing i c with
  | zero => simp [reserveCandidates]
  | succ fuel ih =>
      rw [reserveCandidates, ih]
      simp [List.range'_succ]

theorem reserveLoop_find (ex : String → Bool) (dir targetName : String) :
    ∀ (fuel i : Nat) (candidate cp y : String),
      (reserveCandidates targetName fuel i candidate).find?
          (fun c => !(ex (goJoin dir c))) = some y →
      reserveLoop ex dir targetName fuel i candidate cp = (y, goJoin dir y) := by
  intro fuel
  induction fuel with
  | zero => intro i c cp y h; simp [reserveCandidates] at h
  | succ fuel ih =>
      intro i c cp y h
      rw [reserveCandidates] at h
      by_cases hex : ex (goJoin dir c)
      · rw [List.find?_cons_of_neg _ (by simp [hex])] at h
        rw [reserveLoop]
        simp only [hex, if_true]
        exact ih _ _ _ _ h
      · rw [List.find?_cons_of_pos _ (by simp [hex])] at h
        injection h with h
        subst h
        rw [reserveLoop]
        simp [hex]

/-- Sequential reservations: each call reserves a name against the
accumulated set of created paths and the created path is added to the
set (the placeholder creation of the Go source).  Returns the final set
and the chosen names in order. -/
def insertReservations (dir : String) : List String → List String → List String × List String
  | fs, [] => (fs, [])
  | fs, n :: rest =>
      let r := reserveUniqueFilename (fun p => fs.contains p) dir n
      let out := insertReservations dir (r.2 :: fs) rest
      (out.1, r.1 :: out.2)

/-- C5: filename collision sequence.  The reservation examines the
original target name first and then the candidates derived from it with
counters 002, 003, ... (never compounding, spliced at the first dot or
appended when there is none), returning the first candidate whose path
does not exist.  Consequently five reservations of `p.jpg` in one
directory yield p.jpg, p-002.jpg, p-003.jpg, p-004.jpg, p-005.jpg, and
three reservations of the extension-less name `album` yield album,
album-002, album-003. -/
theorem reserve_unique_filename_sequence :
    (∀ (ex : String → Bool) (dir targetName y : String),
      (targetName :: (List.range' 2 997).map (candidateName targetName)).find?
          (fun c => !(ex (goJoin dir c))) = some y →
      reserveUniqueFilename ex dir targetName = (y, goJoin dir y)) ∧
    (insertReservations "A" [] ["p.jpg", "p.jpg", "p.jpg", "p.jpg", "p.jpg"]).2 =
      ["p.jpg", "p-002.jpg", "p-003.jpg", "p-004.jpg", "p-005.jpg"] ∧
    (insertReservations "A" [] ["album", "album", "album"]).2 =
      ["album", "album-002", "album-003"] := by
  refine ⟨?_, ?_, ?_⟩
  · intro ex dir targetName y h
    apply reserveLoop_find ex dir targetName 998 2 targetName (goJoin dir targetName) y
    rw [reserveCandidates_succ]
    exact h
  · rfl
  · rfl

/-- Witness for C5: with only `A/p.jpg` existing, the reservation of
`p.jpg` in `A` returns the first free candidate p-002.jpg. -/
theorem reserve_unique_filename_sequence_witness :
    reserveUniqueFilename (fun p => p = "A/p.jpg") "A" "p.jpg" =
      ("p-002.jpg", goJoin "A" "p-002.jpg") := by
  exact reserve_unique_filename_sequence.1
    (fun p => p = "A/p.jpg") "A" "p.jpg" "p-002.jpg" (by rfl)

theorem reserveLoop_all_taken (dir targetName : String) :
    ∀ (fuel i : Nat) (c cp : String),
      reserveLoop (fun _ => true) dir targetName (fuel + 2) i c cp =
        (candidateName targetName (i + fuel + 1),
         goJoin dir (candidateName targetName (i + fuel))) := by
  intro fuel
  induction fuel with
  | zero =>
      intro i c cp
      show reserveLoop _ _ _ 2 i c cp = _
      rw [reserveLoop, if_pos rfl, reserveLoop, if_pos rfl, reserveLoop]
      simp
  | succ fuel ih =>
      intro i c cp
      show reserveLoop _ _ _ (fuel + 2 + 1) i c cp = _
      rw [reserveLoop, if_pos rfl, ih (i + 1)]
      have h1 : i + 1 + fuel + 1 = i + (fuel + 1) + 1 := by omega
      have h2 : i + 1 + fuel = i + (fuel + 1) := by omega
      rw [h1, h2]

/-- C6: on name exhaustion the source returns no error at all.  With
every path taken, the loop checks the target name and the candidates
numbered 002 through 998, falls through with the never-checked candidate
p-999.jpg as the returned name, while the placeholder creation
(`os.Create`) happens at the stale candidate path d/p-998.jpg, an
already existing file which is silently truncated.  The returned name
does not match the created path. -/
theorem reserve_exhaustion_no_error :
    reserveUniqueFilename (fun _ => true) "d" "p.jpg" = ("p-999.jpg", "d/p-998.jpg") ∧
    goJoin "d" "p-999.jpg" ≠ "d/p-998.jpg" ∧
    (fun (_ : String) => true) "d/p-998.jpg" = true := by
  refine ⟨?_, by decide, rfl⟩
  unfold reserveUniqueFilename
  rw [show (998 : Nat) = 996 + 2 from rfl, reserveLoop_all_taken]
  rfl

/-! ## Prune directory-removal guard (prune.go, lines 75-123)

After deleting the items and the collection record, `deleteCollection`
reads AT MOST TWO names from the collection directory
(`f.Readdirnames(2)`) and removes the directory recursively when that
sample is empty or consists only of hidden or `Thumbs.db` entries. -/

/-- One directory entry blocks removal when it is nonempty, not hidden
and not `Thumbs.db` - the condition of the loop in `deleteCollection`. -/
def entryBlocks (name : String) : Bool :=
  match name.data with
  | [] => false
  | c :: _ => decide (c ≠ '.' ∧ name ≠ "Thumbs.db")

/-- The `delFolder` loop of `deleteCollection`: starts from
`len(names) == 0`, and for each name either clears the flag and breaks
(blocking entry) or sets it. -/
def delFolderLoop : Bool → List String → Bool
  | acc, [] => acc
  | _, n :: rest => if entryBlocks n then false else delFolderLoop true rest

/-- The directory-removal decision of `deleteCollection` as a function
of the full directory listing (in directory order): the source samples
the first two names via `Readdirnames(2)` and applies the loop to the
sample. -/
def deleteCollectionDirDecision (entries : List String) : Bool :=
  let names := entries.take 2
  delFolderLoop names.isEmpty names

theorem delFolderLoop_true (names : List String) :
    delFolderLoop true names = names.all (fun n => !entryBlocks n) := by
  induction names with
  | nil => rfl
  | cons n rest ih => cases hb : entryBlocks n <;> simp [delFolderLoop, hb, ih]

theorem delFolderLoop_eq_all (names : List String) :
    delFolderLoop names.isEmpty names = names.all (fun n => !entryBlocks n) := by
  cases names with
  | nil => rfl
  | cons n rest =>
      cases hb : entryBlocks n <;> simp [delFolderLoop, hb, delFolderLoop_true]

/-- C7: the guard examines only the first two directory entries.  A
directory whose listing begins with `.DS_Store` and `Thumbs.db` is
removed even though it also contains the regular entry photo.jpg - a
non-hidden, non-Thumbs.db entry the claim says prevents removal.  The
two-entry directory of the claim is removed as stated. -/
theorem prune_dir_guard_samples_two :
    deleteCollectionDirDecision [".DS_Store", "Thumbs.db", "photo.jpg"] = true ∧
    entryBlocks "photo.jpg" = true ∧
    deleteCollectionDirDecision [".DS_Store", "Thumbs.db"] = true ∧
    (∀ entries : List String,
      deleteCollectionDirDecision entries = (entries.take 2).all (fun n => !entryBlocks n)) := by
  refine ⟨by decide, by decide, by decide, ?_⟩
  intro entries
  unfold deleteCollectionDirDecision
  exact delFolderLoop_eq_all (entries.take 2)

/-! ## Worker counts in Store (part_006, lines 210-279)

`Store` clamps the item-worker count to a minimum of one, but derives
the collection-walker semaphore capacity from the RAW configured value
with Go truncating integer division: `numCollWorkers := r.NumWorkers / 2`
clamped to a minimum of one. -/

/-- The item-worker count of `Store`: the configured value, minimum 1. -/
def numItemWorkers (n : Int) : Int := if n < 1 then 1 else n

/-- The collection-walker semaphore capacity of `Store`: the configured
value divided by two with Go (truncating) division, minimum 1. -/
def numCollWorkers (n : Int) : Int :=
  let k := Int.tdiv n 2
  if k < 1 then 1 else k

/-- C8 counterexample: for a configured worker count of 5 the semaphore
capacity is 2 (floor division), not the 3 claimed via ceiling
division. -/
theorem coll_worker_capacity_counterexample :
    numCollWorkers 5 = 2 ∧ numCollWorkers 5 ≠ 3 := by
  constructor <;> decide

/-- C8 amended: the collection-walker capacity equals
`max 1 (N / 2)` with truncating (floor, for nonnegative N) division,
where `N` is the item-worker count clamped to a minimum of one; for
N = 5 the capacity is 2. -/
theorem coll_worker_capacity (n : Int) :
    numCollWorkers n = max 1 (Int.tdiv (numItemWorkers n) 2) := by
  unfold numCollWorkers numItemWorkers
  by_cases h : n < 1
  · have hd : Int.tdiv n 2 < 1 := by
      cases n with
      | ofNat k =>
          cases k with
          | zero => decide
          | succ k =>
              exfalso
              have hh : ((k + 1 : Nat) : Int) < 1 := h
              omega
      | negSucc k =>
          have heq : Int.tdiv (Int.negSucc k) 2 = -(((k + 1) / 2 : Nat) : Int) := rfl
          rw [heq]; omega
    simp only [if_pos h, if_pos hd]
    rw [show Int.tdiv 1 2 = 0 from rfl]
    simp
  · simp only [if_neg h]
    by_cases h2 : Int.tdiv n 2 < 1
    · simp only [if_pos h2]
      exact (max_eq_left (by omega)).symm
    · simp only [if_neg h2]
      exact (max_eq_right (by omega)).symm

/-! ## Path round trip (C10): repoRelative after fullPath -/

/-- A path segment that lexical cleaning passes through untouched:
nonempty, not dot, not dot-dot. -/
def niceSeg (seg : List Char) : Prop := seg ≠ [] ∧ seg ≠ ['.'] ∧ seg ≠ ['.', '.']

instance (seg : List Char) : Decidable (niceSeg seg) := by
  unfold niceSeg; infer_instance

theorem splitSegs_ne_nil (l : List Char) : splitSegs l ≠ [] := by
  cases l with
  | nil => simp [splitSegs]
  | cons c rest =>
      rw [splitSegs]
      by_cases hc : c = '/'
      · simp [hc]
      · simp only [if_neg hc]
        rcases h : splitSegs rest with _ | ⟨s, tail⟩ <;> simp

theorem splitSegs_append (a b : List Char) :
    splitSegs (a ++ '/' :: b) = splitSegs a ++ splitSegs b := by
  induction a with
  | nil => simp [splitSegs]
  | cons c rest ih =>
      by_cases hc : c = '/'
      · rw [List.cons_append, splitSegs, if_pos hc, ih, splitSegs, if_pos hc]
        rfl
      · rw [List.cons_append, splitSegs, if_neg hc, ih, splitSegs, if_neg hc]
        rcases h : splitSegs rest with _ | ⟨s, tail⟩
        · exact absurd h (splitSegs_ne_nil rest)
        · rfl

theorem joinSegs_cons_cons (c : Char) (s : List Char) (tail : List (List Char)) :
    joinSegs ((c :: s) :: tail) = c :: joinSegs (s :: tail) := by
  cases tail with
  | nil => rfl
  | cons u t => simp [joinSegs]

theorem joinSegs_splitSegs (l : List Char) : joinSegs (splitSegs l) = l := by
  induction l with
  | nil => rfl
  | cons c rest ih =>
      by_cases hc : c = '/'
      · subst hc
        rw [splitSegs, if_pos rfl]
        rcases h : splitSegs rest with _ | ⟨s, tail⟩
        · exact absurd h (splitSegs_ne_nil rest)
        · show '/' :: joinSegs (s :: tail) = '/' :: rest
          rw [← h, ih]
      · rw [splitSegs, if_neg hc]
        rcases h : splitSegs rest with _ | ⟨s, tail⟩
        · exact absurd h (splitSegs_ne_nil rest)
        · show joinSegs ((c :: s) :: tail) = c :: rest
          rw [joinSegs_cons_cons, ← h, ih]

theorem cleanSegs_nil (rooted : Bool) (out : List (List Char)) :
    cleanSegs rooted out [] = out.reverse := rfl

theorem cleanSegs_cons_empty (rooted : Bool) (out : List (List Char))
    (rest : List (List Char)) :
    cleanSegs rooted out ([] :: rest) = cleanSegs rooted out rest := by
  rw [cleanSegs.eq_def]
  simp

theorem cleanSegs_nice (rooted : Bool) (segs : List (List Char))
    (h : ∀ s ∈ segs, niceSeg s) :
    ∀ out, cleanSegs rooted out segs = out.reverse ++ segs := by
  induction segs with
  | nil => intro out; simp [cleanSegs_nil]
  | cons seg rest ih =>
      intro out
      obtain ⟨h1, h2, h3⟩ := h seg (List.mem_cons_self _ _)
      have hrest : ∀ s ∈ rest, niceSeg s := fun s hs => h s (List.mem_cons_of_mem _ hs)
      rw [cleanSegs.eq_def]
      simp only [if_neg (show ¬(seg = [] ∨ seg = ['.']) by simp [h1, h2]), if_neg h3]
      rw [ih hrest]
      simp

theorem cleanChars_nice_rel (l : List Char) (h : ∀ s ∈ splitSegs l, niceSeg s) :
    cleanChars l = l := by
  cases l with
  | nil =>
      exfalso
      have := h [] (by simp [splitSegs])
      exact this.1 rfl
  | cons c rest =>
      have hc : c ≠ '/' := by
        intro hc
        subst hc
        have := h [] (by rw [splitSegs, if_pos rfl]; exact List.mem_cons_self _ _)
        exact this.1 rfl
      show (if c = '/' then '/' :: joinSegs (cleanSegs true [] (splitSegs (c :: rest)))
            else match cleanSegs false [] (splitSegs (c :: rest)) with
                 | [] => ['.']
                 | s :: tail => joinSegs (s :: tail)) = c :: rest
      rw [if_neg hc]
      rw [cleanSegs_nice false (splitSegs (c :: rest)) h []]
      simp only [List.reverse_nil, List.nil_append]
      rcases hs : splitSegs (c :: rest) with _ | ⟨s, tail⟩
      · exact absurd hs (splitSegs_ne_nil _)
      · show joinSegs (s :: tail) = c :: rest
        rw [← hs, joinSegs_splitSegs]

theorem cleanChars_nice_rooted (t : List Char) (h : ∀ s ∈ splitSegs t, niceSeg s) :
    cleanChars ('/' :: t) = '/' :: t := by
  show (if ('/' : Char) = '/' then '/' :: joinSegs (cleanSegs true [] (splitSegs ('/' :: t)))
        else match cleanSegs false [] (splitSegs ('/' :: t)) with
             | [] => ['.']
             | s :: tail => joinSegs (s :: tail)) = '/' :: t
  rw [if_pos rfl]
  have hsplit : splitSegs ('/' :: t) = [] :: splitSegs t := by
    rw [splitSegs, if_pos rfl]
  rw [hsplit, cleanSegs_cons_empty, cleanSegs_nice true (splitSegs t) h []]
  simp only [List.reverse_nil, List.nil_append]
  rw [joinSegs_splitSegs]

theorem data_append (a b : String) : (a ++ b).data = a.data ++ b.data := rfl

theorem nice_ne_empty (p : String) (hp : ∀ s ∈ splitSegs p.data, niceSeg s) :
    p ≠ "" := by
  intro h
  subst h
  have := hp [] (by simp [splitSegs])
  exact this.1 rfl

theorem clean_nice (p : String) (hp : ∀ s ∈ splitSegs p.data, niceSeg s) :
    clean p = p := by
  unfold clean
  rw [cleanChars_nice_rel p.data hp]

theorem clean_nice_rooted (r : String) (t : List Char) (hr : r.data = '/' :: t)
    (ht : ∀ s ∈ splitSegs t, niceSeg s) : clean r = r := by
  unfold clean
  rw [hr, cleanChars_nice_rooted t ht, ← hr]

/-- C10 counterexamples: the round trip fails as stated at the cleaned
relative path dot (the full path collapses to the repository path
itself), and at the repository path consisting of the bare separator
(the trimmed prefix is the doubled separator, which never matches). -/
theorem path_roundtrip_counterexample :
    (clean "." = "." ∧ "." ≠ "" ∧ ¬("/".data.isPrefixOf ".".data = true) ∧
      repoRelative "r" (fullPath "r" ".") ≠ ".") ∧
    (clean "a" = "a" ∧ "a" ≠ "" ∧ ¬("/".data.isPrefixOf "a".data = true) ∧
      repoRelative "/" (fullPath "/" "a") ≠ "a") := by
  refine ⟨⟨?_, ?_, ?_, ?_⟩, ⟨?_, ?_, ?_, ?_⟩⟩ <;> decide


/-! ### Characterisation of cleaned paths

To prove the round trip for EVERY lexically clean repository path other
than the bare root, the image of `clean` is characterised: a cleaned
path is dot, the bare root, a rooted path of regular segments, or a
relative path consisting of a run of dot-dot segments followed by
regular segments.  The step lemmas below unfold one iteration of
`cleanSegs`. -/

theorem cleanSegs_cons_skip (rooted : Bool) (out : List (List Char)) (seg : List Char)
    (rest : List (List Char)) (h : seg = [] ∨ seg = ['.']) :
    cleanSegs rooted out (seg :: rest) = cleanSegs rooted out rest := by
  rw [cleanSegs.eq_def]
  simp only [if_pos h]

theorem cleanSegs_dotdot_nil (rooted : Bool) (rest : List (List Char)) :
    cleanSegs rooted [] (['.', '.'] :: rest) =
      (if rooted then cleanSegs rooted [] rest else cleanSegs rooted [['.', '.']] rest) := by
  rw [cleanSegs.eq_def]
  simp

theorem cleanSegs_dotdot_push (rooted : Bool) (top : List Char) (out2 rest : List (List Char))
    (h : top = ['.', '.']) :
    cleanSegs rooted (top :: out2) (['.', '.'] :: rest) =
      cleanSegs rooted (['.', '.'] :: top :: out2) rest := by
  rw [cleanSegs.eq_def]
  simp [h]

theorem cleanSegs_dotdot_pop (rooted : Bool) (top : List Char) (out2 rest : List (List Char))
    (h : top ≠ ['.', '.']) :
    cleanSegs rooted (top :: out2) (['.', '.'] :: rest) = cleanSegs rooted out2 rest := by
  rw [cleanSegs.eq_def]
  simp [h]

theorem cleanSegs_cons_push (rooted : Bool) (out : List (List Char)) (seg : List Char)
    (rest : List (List Char)) (h1 : ¬(seg = [] ∨ seg = ['.'])) (h2 : seg ≠ ['.', '.']) :
    cleanSegs rooted out (seg :: rest) = cleanSegs rooted (seg :: out) rest := by
  rw [cleanSegs.eq_def]
  simp only [if_neg h1, if_neg h2]

theorem cleanChars_cons_rel (c : Char) (rest : List Char) (hc : c ≠ '/') :
    cleanChars (c :: rest) =
      (match cleanSegs false [] (splitSegs (c :: rest)) with
       | [] => ['.']
       | s :: tail => joinSegs (s :: tail)) := by
  show (if c = '/' then '/' :: joinSegs (cleanSegs true [] (splitSegs (c :: rest)))
        else match cleanSegs false [] (splitSegs (c :: rest)) with
             | [] => ['.']
             | s :: tail => joinSegs (s :: tail)) = _
  rw [if_neg hc]

theorem cleanChars_cons_root (rest : List Char) :
    cleanChars ('/' :: rest) =
      '/' :: joinSegs (cleanSegs true [] (splitSegs ('/' :: rest))) := by
  show (if ('/' : Char) = '/' then '/' :: joinSegs (cleanSegs true [] (splitSegs ('/' :: rest)))
        else match cleanSegs false [] (splitSegs ('/' :: rest)) with
             | [] => ['.']
             | s :: tail => joinSegs (s :: tail)) = _
  rw [if_pos rfl]

theorem mem_splitSegs_no_slash : ∀ (l : List Char) (s : List Char),
    s ∈ splitSegs l → '/' ∉ s := by
  intro l
  induction l with
  | nil =>
      intro s hs
      simp [splitSegs] at hs
      subst hs
      simp
  | cons c rest ih =>
      intro s hs
      by_cases hc : c = '/'
      · rw [splitSegs, if_pos hc] at hs
        rcases List.mem_cons.mp hs with h | h
        · subst h; simp
        · exact ih s h
      · rw [splitSegs, if_neg hc] at hs
        rcases hr : splitSegs rest with _ | ⟨s0, tail⟩
        · exact absurd hr (splitSegs_ne_nil rest)
        · rw [hr] at hs
          rcases List.mem_cons.mp hs with h | h
          · subst h
            intro hmem
            rcases List.mem_cons.mp hmem with h2 | h2
            · exact hc h2.symm
            · exact ih s0 (by rw [hr]; exact List.mem_cons_self _ _) h2
          · exact ih s (by rw [hr]; exact List.mem_cons_of_mem _ h)

theorem splitSegs_single (s : List Char) (h : '/' ∉ s) : splitSegs s = [s] := by
  induction s with
  | nil => rfl
  | cons c t ih =>
      have hc : c ≠ '/' := fun hh => h (by rw [hh]; exact List.mem_cons_self _ _)
      have ht : '/' ∉ t := fun hh => h (List.mem_cons_of_mem _ hh)
      rw [splitSegs, if_neg hc, ih ht]

theorem splitSegs_joinSegs (segs : List (List Char)) :
    segs ≠ [] → (∀ s ∈ segs, '/' ∉ s) → splitSegs (joinSegs segs) = segs := by
  induction segs with
  | nil => intro h _; cases h rfl
  | cons s tail ih =>
      intro _ h
      cases tail with
      | nil => exact splitSegs_single s (h s (List.mem_cons_self _ _))
      | cons s2 t2 =>
          show splitSegs (s ++ '/' :: joinSegs (s2 :: t2)) = s :: s2 :: t2
          rw [splitSegs_append, splitSegs_single s (h s (List.mem_cons_self _ _)),
            ih (by simp) (fun x hx => h x (List.mem_cons_of_mem _ hx))]
          rfl

theorem mem_cleanSegs : ∀ (segs : List (List Char)) (rooted : Bool)
    (out : List (List Char)) (s : List Char),
    s ∈ cleanSegs rooted out segs → s ∈ out ∨ s ∈ segs ∨ s = ['.', '.'] := by
  intro segs
  induction segs with
  | nil =>
      intro rooted out s hs
      rw [cleanSegs_nil] at hs
      exact Or.inl (List.mem_reverse.mp hs)
  | cons seg rest ih =>
      intro rooted out s hs
      by_cases h1 : seg = [] ∨ seg = ['.']
      · rw [cleanSegs_cons_skip rooted out seg rest h1] at hs
        rcases ih rooted out s hs with h | h | h
        · exact Or.inl h
        · exact Or.inr (Or.inl (List.mem_cons_of_mem _ h))
        · exact Or.inr (Or.inr h)
      · by_cases h2 : seg = ['.', '.']
        · subst h2
          cases out with
          | nil =>
              rw [cleanSegs_dotdot_nil] at hs
              cases hb : rooted
              · rw [hb] at hs
                simp only [Bool.false_eq_true, if_false] at hs
                rcases ih false [['.', '.']] s hs with h | h | h
                · exact Or.inr (Or.inr (by simpa using h))
                · exact Or.inr (Or.inl (List.mem_cons_of_mem _ h))
                · exact Or.inr (Or.inr h)
              · rw [hb] at hs
                simp only [if_true] at hs
                rcases ih true [] s hs with h | h | h
                · simp at h
                · exact Or.inr (Or.inl (List.mem_cons_of_mem _ h))
                · exact Or.inr (Or.inr h)
          | cons top out2 =>
              by_cases h3 : top = ['.', '.']
              · rw [cleanSegs_dotdot_push rooted top out2 rest h3] at hs
                rcases ih rooted (['.', '.'] :: top :: out2) s hs with h | h | h
                · rcases List.mem_cons.mp h with h4 | h4
                  · exact Or.inr (Or.inr h4)
                  · exact Or.inl h4
                · exact Or.inr (Or.inl (List.mem_cons_of_mem _ h))
                · exact Or.inr (Or.inr h)
              · rw [cleanSegs_dotdot_pop rooted top out2 rest h3] at hs
                rcases ih rooted out2 s hs with h | h | h
                · exact Or.inl (List.mem_cons_of_mem _ h)
                · exact Or.inr (Or.inl (List.mem_cons_of_mem _ h))
                · exact Or.inr (Or.inr h)
        · rw [cleanSegs_cons_push rooted out seg rest h1 h2] at hs
          rcases ih rooted (seg :: out) s hs with h | h | h
          · rcases List.mem_cons.mp h with h4 | h4
            · exact Or.inr (Or.inl (by rw [h4]; exact List.mem_cons_self _ _))
            · exact Or.inl h4
          · exact Or.inr (Or.inl (List.mem_cons_of_mem _ h))
          · exact Or.inr (Or.inr h)

theorem cleanSegs_true_nice : ∀ (segs out : List (List Char)),
    (∀ s ∈ out, niceSeg s) → ∀ s ∈ cleanSegs true out segs, niceSeg s := by
  intro segs
  induction segs with
  | nil =>
      intro out hout s hs
      rw [cleanSegs_nil] at hs
      exact hout s (List.mem_reverse.mp hs)
  | cons seg rest ih =>
      intro out hout s hs
      by_cases h1 : seg = [] ∨ seg = ['.']
      · rw [cleanSegs_cons_skip true out seg rest h1] at hs
        exact ih out hout s hs
      · by_cases h2 : seg = ['.', '.']
        · subst h2
          cases out with
          | nil =>
              rw [cleanSegs_dotdot_nil, if_pos rfl] at hs
              exact ih [] (by simp) s hs
          | cons top out2 =>
              have h3 : top ≠ ['.', '.'] := by
                intro hcon
                exact absurd hcon (hout top (List.mem_cons_self _ _)).2.2
              rw [cleanSegs_dotdot_pop true top out2 rest h3] at hs
              exact ih out2 (fun x hx => hout x (List.mem_cons_of_mem _ hx)) s hs
        · rw [cleanSegs_cons_push true out seg rest h1 h2] at hs
          refine ih (seg :: out) ?_ s hs
          intro x hx
          rcases List.mem_cons.mp hx with h4 | h4
          · subst h4
            push_neg at h1
            exact ⟨h1.1, h1.2, h2⟩
          · exact hout x h4

/-- An output stack of `cleanSegs` for a relative path: regular segments
on top of a run of dot-dot segments. -/
def NiceThenDots (out : List (List Char)) : Prop :=
  ∃ ns dd, out = ns ++ dd ∧ (∀ s ∈ ns, niceSeg s) ∧ ∀ s ∈ dd, s = ['.', '.']

theorem cleanSegs_false_shape : ∀ (segs out : List (List Char)),
    NiceThenDots out →
    ∃ dd ns, cleanSegs false out segs = dd ++ ns ∧
      (∀ s ∈ dd, s = ['.', '.']) ∧ ∀ s ∈ ns, niceSeg s := by
  intro segs
  induction segs with
  | nil =>
      intro out hout
      obtain ⟨ns, dd, heq, hns, hdd⟩ := hout
      refine ⟨dd.reverse, ns.reverse, ?_, ?_, ?_⟩
      · rw [cleanSegs_nil, heq, List.reverse_append]
      · intro s hs; exact hdd s (List.mem_reverse.mp hs)
      · intro s hs; exact hns s (List.mem_reverse.mp hs)
  | cons seg rest ih =>
      intro out hout
      by_cases h1 : seg = [] ∨ seg = ['.']
      · rw [cleanSegs_cons_skip false out seg rest h1]
        exact ih out hout
      · by_cases h2 : seg = ['.', '.']
        · subst h2
          cases out with
          | nil =>
              rw [cleanSegs_dotdot_nil]
              simp only [Bool.false_eq_true, if_false]
              exact ih [['.', '.']] ⟨[], [['.', '.']], rfl, by simp, by simp⟩
          | cons top out2 =>
              obtain ⟨ns, dd, heq, hns, hdd⟩ := hout
              cases ns with
              | nil =>
                  have htop : top = ['.', '.'] := by
                    have : top ∈ dd := by
                      rw [← List.nil_append dd, ← heq]; exact List.mem_cons_self _ _
                    exact hdd top this
                  rw [cleanSegs_dotdot_push false top out2 rest htop]
                  refine ih (['.', '.'] :: top :: out2) ⟨[], ['.', '.'] :: top :: out2, rfl,
                    by simp, ?_⟩
                  intro s hs
                  rcases List.mem_cons.mp hs with h | h
                  · exact h
                  · exact hdd s (by rw [← List.nil_append dd, ← heq]; exact h)
              | cons t ns2 =>
                  have heq2 : top :: out2 = t :: (ns2 ++ dd) := heq
                  injection heq2 with h5 h6
                  have htn : niceSeg top := by
                    rw [h5]; exact hns t (List.mem_cons_self _ _)
                  rw [cleanSegs_dotdot_pop false top out2 rest htn.2.2]
                  refine ih out2 ⟨ns2, dd, h6, ?_, hdd⟩
                  intro x hx
                  exact hns x (List.mem_cons_of_mem _ hx)
        · rw [cleanSegs_cons_push false out seg rest h1 h2]
          obtain ⟨ns, dd, heq, hns, hdd⟩ := hout
          refine ih (seg :: out) ⟨seg :: ns, dd, by rw [heq]; rfl, ?_, hdd⟩
          intro x hx
          rcases List.mem_cons.mp hx with h | h
          · subst h
            push_neg at h1
            exact ⟨h1.1, h1.2, h2⟩
          · exact hns x h

/-- The shape of every output of lexical cleaning: dot, the bare root,
a rooted path of regular segments, or a run of dot-dot segments
followed by regular segments. -/
def CleanShape (l : List Char) : Prop :=
  l = ['.'] ∨ l = ['/'] ∨
  (∃ t, l = '/' :: t ∧ ∀ s ∈ splitSegs t, niceSeg s) ∨
  (∃ dd ns, splitSegs l = dd ++ ns ∧ (∀ s ∈ dd, s = ['.', '.']) ∧ ∀ s ∈ ns, niceSeg s)

theorem cleanChars_shape (l : List Char) : CleanShape (cleanChars l) := by
  cases l with
  | nil => exact Or.inl rfl
  | cons c rest =>
      by_cases hc : c = '/'
      · subst hc
        rw [cleanChars_cons_root]
        have hnice : ∀ s ∈ cleanSegs true [] (splitSegs ('/' :: rest)), niceSeg s :=
          cleanSegs_true_nice _ [] (by simp)
        have hnoslash : ∀ s ∈ cleanSegs true [] (splitSegs ('/' :: rest)), '/' ∉ s := by
          intro s hs
          rcases mem_cleanSegs _ true [] s hs with h | h | h
          · simp at h
          · exact mem_splitSegs_no_slash _ s h
          · rw [h]; simp
        rcases hsegs : cleanSegs true [] (splitSegs ('/' :: rest)) with _ | ⟨s0, tail⟩
        · exact Or.inr (Or.inl rfl)
        · rw [hsegs] at hnice hnoslash
          refine Or.inr (Or.inr (Or.inl ⟨joinSegs (s0 :: tail), rfl, ?_⟩))
          rw [splitSegs_joinSegs (s0 :: tail) (by simp) hnoslash]
          exact hnice
      · rw [cleanChars_cons_rel c rest hc]
        obtain ⟨dd, ns, heq, hdd, hns⟩ :=
          cleanSegs_false_shape (splitSegs (c :: rest)) [] ⟨[], [], rfl, by simp, by simp⟩
        have hnoslash : ∀ s ∈ cleanSegs false [] (splitSegs (c :: rest)), '/' ∉ s := by
          intro s hs
          rcases mem_cleanSegs _ false [] s hs with h | h | h
          · simp at h
          · exact mem_splitSegs_no_slash _ s h
          · rw [h]; simp
        rcases hsegs : cleanSegs false [] (splitSegs (c :: rest)) with _ | ⟨s0, tail⟩
        · exact Or.inl rfl
        · rw [hsegs] at hnoslash
          show CleanShape (joinSegs (s0 :: tail))
          refine Or.inr (Or.inr (Or.inr ⟨dd, ns, ?_, hdd, hns⟩))
          rw [splitSegs_joinSegs (s0 :: tail) (by simp) hnoslash, ← hsegs]
          exact heq

theorem string_eq_of_data (a b : String) (h : a.data = b.data) : a = b := by
  cases a; cases b; exact congrArg String.mk h

theorem clean_shape (r : String) (h : clean r = r) : CleanShape r.data := by
  have hd : cleanChars r.data = r.data := congrArg String.data h
  rw [← hd]
  exact cleanChars_shape r.data

theorem cleanSegs_dots_nice : ∀ (dd ns out : List (List Char)),
    (∀ s ∈ dd, s = ['.', '.']) → (∀ s ∈ ns, niceSeg s) → (∀ s ∈ out, s = ['.', '.']) →
    cleanSegs false out (dd ++ ns) = out.reverse ++ (dd ++ ns) := by
  intro dd
  induction dd with
  | nil =>
      intro ns out _ hns _
      simpa using cleanSegs_nice false ns hns out
  | cons seg dd2 ih =>
      intro ns out hdd hns hout
      have hseg : seg = ['.', '.'] := hdd seg (List.mem_cons_self _ _)
      subst hseg
      have hdd2 : ∀ s ∈ dd2, s = ['.', '.'] := fun s hs => hdd s (List.mem_cons_of_mem _ hs)
      cases out with
      | nil =>
          rw [List.cons_append, cleanSegs_dotdot_nil]
          simp only [Bool.false_eq_true, if_false]
          rw [ih ns [['.', '.']] hdd2 hns (by simp)]
          simp
      | cons top out2 =>
          have htop : top = ['.', '.'] := hout top (List.mem_cons_self _ _)
          subst htop
          rw [List.cons_append, cleanSegs_dotdot_push false _ _ _ rfl]
          rw [ih ns (['.', '.'] :: ['.', '.'] :: out2) hdd2 hns ?hall]
          case hall =>
            intro s hs
            rcases List.mem_cons.mp hs with h | h
            · exact h
            · exact hout s h
          simp

theorem cleanChars_dots_nice (l : List Char) (dd ns : List (List Char))
    (hsplit : splitSegs l = dd ++ ns)
    (hdd : ∀ s ∈ dd, s = ['.', '.']) (hns : ∀ s ∈ ns, niceSeg s) :
    cleanChars l = l := by
  cases l with
  | nil =>
      exfalso
      have hmem : ([] : List Char) ∈ dd ++ ns := by
        rw [← hsplit]; simp [splitSegs]
      rcases List.mem_append.mp hmem with h | h
      · exact absurd (hdd [] h) (by decide)
      · exact (hns [] h).1 rfl
  | cons c rest =>
      have hc : c ≠ '/' := by
        intro hc
        subst hc
        have hmem : ([] : List Char) ∈ dd ++ ns := by
          rw [← hsplit, splitSegs, if_pos rfl]
          exact List.mem_cons_self _ _
        rcases List.mem_append.mp hmem with h | h
        · exact absurd (hdd [] h) (by decide)
        · exact (hns [] h).1 rfl
      rw [cleanChars_cons_rel c rest hc, hsplit, cleanSegs_dots_nice dd ns [] hdd hns (by simp)]
      simp only [List.reverse_nil, List.nil_append]
      rw [← hsplit]
      rcases hs : splitSegs (c :: rest) with _ | ⟨s0, tail⟩
      · exact absurd hs (splitSegs_ne_nil _)
      · show joinSegs (s0 :: tail) = c :: rest
        rw [← hs, joinSegs_splitSegs]

theorem cleanChars_dot_slash (pd : List Char) (hp : ∀ s ∈ splitSegs pd, niceSeg s) :
    cleanChars ('.' :: '/' :: pd) = pd := by
  have h1 : splitSegs ('/' :: pd) = [] :: splitSegs pd := by
    rw [splitSegs, if_pos rfl]
  have hsp : splitSegs ('.' :: '/' :: pd) = ['.'] :: splitSegs pd := by
    rw [splitSegs, if_neg (by decide), h1]
  rw [cleanChars_cons_rel '.' ('/' :: pd) (by decide), hsp,
    cleanSegs_cons_skip false [] ['.'] (splitSegs pd) (Or.inr rfl),
    cleanSegs_nice false (splitSegs pd) hp []]
  simp only [List.reverse_nil, List.nil_append]
  rcases hs : splitSegs pd with _ | ⟨s0, tail⟩
  · exact absurd hs (splitSegs_ne_nil _)
  · show joinSegs (s0 :: tail) = pd
    rw [← hs, joinSegs_splitSegs]

theorem roundtrip_of_cleancat (repoPath p : String) (hclean : clean repoPath = repoPath)
    (hrne : repoPath ≠ "") (hpne : p ≠ "")
    (hcat : clean (repoPath ++ "/" ++ p) = repoPath ++ "/" ++ p) :
    repoRelative repoPath (fullPath repoPath p) = p := by
  have hfull : fullPath repoPath p = repoPath ++ "/" ++ p := by
    unfold fullPath goJoin
    rw [if_neg (by simp [hrne, hpne]), if_neg hrne, if_neg hpne]
    exact hcat
  rw [hfull]
  unfold repoRelative trimPrefix
  rw [hclean]
  have hpre : (repoPath ++ "/").data.isPrefixOf (repoPath ++ "/" ++ p).data = true := by
    rw [List.isPrefixOf_iff_prefix, data_append]
    exact ⟨p.data, rfl⟩
  rw [if_pos hpre]
  rw [data_append (repoPath ++ "/") p, List.drop_left]

/-- C10 amended: for every repository path that is lexically clean
(a fixed point of `clean`) and is not the bare separator root, and for
every repo-relative path p all of whose segments are nonempty and
neither dot nor dot-dot (a nonempty cleaned relative path other than
dot, with no leading separator and no dot-dot segment), p is fixed by
cleaning and converting p to a full path and back is the identity. -/
theorem path_roundtrip (repoPath p : String)
    (hclean : clean repoPath = repoPath)
    (hroot : repoPath ≠ "/")
    (hp : ∀ s ∈ splitSegs p.data, niceSeg s) :
    clean p = p ∧ repoRelative repoPath (fullPath repoPath p) = p := by
  have hpne : p ≠ "" := nice_ne_empty p hp
  have hrne : repoPath ≠ "" := by
    intro h
    rw [h] at hclean
    exact absurd hclean (by decide)
  refine ⟨clean_nice p hp, ?_⟩
  have hdata : (repoPath ++ "/" ++ p).data = repoPath.data ++ '/' :: p.data := by
    rw [data_append, data_append]
    simp
  rcases clean_shape repoPath hclean with hdot | hslash | ⟨t, ht, hts⟩ | ⟨dd, ns, hsplit, hdd, hns⟩
  · -- the repository path is dot: the join collapses to p and the trim
    -- is a no-op, because no segment of p is a dot segment
    have hfp : fullPath repoPath p = p := by
      unfold fullPath goJoin
      rw [if_neg (by simp [hrne, hpne]), if_neg hrne, if_neg hpne]
      unfold clean
      have hcd : (repoPath ++ "/" ++ p).data = '.' :: '/' :: p.data := by
        rw [hdata, hdot]
        rfl
      rw [hcd, cleanChars_dot_slash p.data hp]
    rw [hfp]
    unfold repoRelative trimPrefix
    rw [hclean]
    have hpd : (repoPath ++ "/").data = ['.', '/'] := by
      rw [data_append, hdot]
      rfl
    have hnpre : ¬ ((repoPath ++ "/").data.isPrefixOf p.data = true) := by
      rw [hpd]
      intro hpref
      obtain ⟨t2, ht2⟩ := List.isPrefixOf_iff_prefix.mp hpref
      have hsp : splitSegs p.data = ['.'] :: splitSegs t2 := by
        rw [← ht2]
        show splitSegs ('.' :: '/' :: t2) = ['.'] :: splitSegs t2
        have h1 : splitSegs ('/' :: t2) = [] :: splitSegs t2 := by
          rw [splitSegs, if_pos rfl]
        rw [splitSegs, if_neg (by decide), h1]
      have := hp ['.'] (by rw [hsp]; exact List.mem_cons_self _ _)
      exact this.2.1 rfl
    rw [if_neg hnpre]
  · -- the bare root is excluded by hypothesis
    exact absurd (string_eq_of_data repoPath "/" (by rw [hslash])) hroot
  · -- rooted repository path with regular segments
    have key : cleanChars ((repoPath ++ "/" ++ p).data) = (repoPath ++ "/" ++ p).data := by
      rw [hdata, ht]
      show cleanChars ('/' :: (t ++ '/' :: p.data)) = '/' :: (t ++ '/' :: p.data)
      apply cleanChars_nice_rooted
      rw [splitSegs_append]
      intro s hs
      rcases List.mem_append.mp hs with h | h
      · exact hts s h
      · exact hp s h
    exact roundtrip_of_cleancat repoPath p hclean hrne hpne (by unfold clean; rw [key])
  · -- relative repository path: dot-dot run then regular segments
    have key : cleanChars ((repoPath ++ "/" ++ p).data) = (repoPath ++ "/" ++ p).data := by
      rw [hdata]
      apply cleanChars_dots_nice _ dd (ns ++ splitSegs p.data)
      · rw [splitSegs_append, hsplit, List.append_assoc]
      · exact hdd
      · intro s hs
        rcases List.mem_append.mp hs with h | h
        · exact hns s h
        · exact hp s h
    exact roundtrip_of_cleancat repoPath p hclean hrne hpne (by unfold clean; rw [key])

/-- Witness for the amended C10: round trips at a rooted clean
repository path, at the dot repository path and at a clean repository
path escaping upward, each with a two-segment relative path. -/
theorem path_roundtrip_witness :
    repoRelative "/x" (fullPath "/x" "a/b.jpg") = "a/b.jpg" ∧
    repoRelative "." (fullPath "." "a/b.jpg") = "a/b.jpg" ∧
    repoRelative "../x" (fullPath "../x" "a/b.jpg") = "a/b.jpg" := by
  refine ⟨?_, ?_, ?_⟩
  · exact (path_roundtrip "/x" "a/b.jpg" (by decide) (by decide) (by decide)).2
  · exact (path_roundtrip "." "a/b.jpg" (by decide) (by decide) (by decide)).2
  · exact (path_roundtrip "../x" "a/b.jpg" (by decide) (by decide) (by decide)).2

/-! ## The bolt index (part_003, second db.go variant)

The database is modelled as association lists mirroring the bolt
buckets: per-account `items` and `collections` buckets keyed by
(account key, id), and the top-level `checksums` bucket mapping a
checksum to the list of (account key, item id) entries whose content has
that checksum.  Gob-encoded values are modelled as the records
themselves; the `Saved` timestamp and the optional raw provider blob
(`Meta.API`) are environmental and omitted.  Account keys and checksums
are strings. -/

/-- The stored item record (`dbItem`). -/
structure DbItem where
  id : String
  name : String
  fileName : String
  filePath : String
  collections : List String
  checksum : String
  etag : String
deriving DecidableEq, Repr

/-- The stored collection record (`dbCollection`). -/
structure DbCollection where
  id : String
  name : String
  dirName : String
  dirPath : String
  items : List String
deriving DecidableEq, Repr

/-- Association-list lookup (bolt `Get`). -/
def alookup {kt vt : Type} [DecidableEq kt] : List (kt × vt) → kt → Option vt
  | [], _ => none
  | (k, v) :: rest, key => if k = key then some v else alookup rest key

/-- Association-list put (bolt `Put`): replace the binding when the key
is present, append it otherwise. -/
def aupsert {kt vt : Type} [DecidableEq kt] : List (kt × vt) → kt → vt → List (kt × vt)
  | [], key, v => [(key, v)]
  | (k, w) :: rest, key, v =>
      if k = key then (key, v) :: rest else (k, w) :: aupsert rest key v

/-- Association-list delete (bolt `Delete`). -/
def aremove {kt vt : Type} [DecidableEq kt] (m : List (kt × vt)) (key : kt) : List (kt × vt) :=
  m.filter (fun kv => decide (kv.1 ≠ key))

/-- Go map-set insertion (`m[k] = struct{}{}`). -/
def insertIfAbsent (x : String) (xs : List String) : List String :=
  if x ∈ xs then xs else xs ++ [x]

/-- The whole database: account item and collection buckets plus the
top-level checksums bucket. -/
structure DB where
  items : List ((String × String) × DbItem)
  collections : List ((String × String) × DbCollection)
  checksums : List (String × List (String × String))
deriving DecidableEq, Repr

/-- The zero `dbItem` produced by gob-decoding a missing value into a
freshly allocated record (only the collections map is initialised). -/
def stubDbItem : DbItem :=
  { id := "", name := "", fileName := "", filePath := "", collections := [],
    checksum := "", etag := "" }

/-- The zero `dbCollection` counterpart. -/
def stubDbCollection : DbCollection :=
  { id := "", name := "", dirName := "", dirPath := "", items := [] }

/-- `addItemToCollection` (part_003, lines 583-635): load the item
(gob-decoding a missing value leaves the zero record), add the
collection id to its set, save it; then load the collection (same stub
behaviour), add the item id to its set, save it.  Note that for an item
not yet committed this WRITES A STUB item record into the items
bucket. -/
def addItemToCollection (db : DB) (acctKey itemID collID : String) : DB :=
  let item0 := (alookup db.items (acctKey, itemID)).getD stubDbItem
  let item1 := { item0 with collections := insertIfAbsent collID item0.collections }
  let coll0 := (alookup db.collections (acctKey, collID)).getD stubDbCollection
  let coll1 := { coll0 with items := insertIfAbsent itemID coll0.items }
  { db with
      items := aupsert db.items (acctKey, itemID) item1,
      collections := aupsert db.collections (acctKey, collID) coll1 }

/-- `saveItemToCollection` (part_003, lines 573-581). -/
def saveItemToCollection (db : DB) (acctKey itemID collID : String) : DB :=
  addItemToCollection db acctKey itemID collID

/-- Removal of the entry of (acctKey, itemID) from a checksum bucket.
The Go loop (lines 458-462) removes the slice element while continuing
to range over the original slice; with at most one matching entry - the
invariant the index maintains - this is exactly first-match removal,
which is how it is modelled. -/
def removeFirstEntry : List (String × String) → String → String → List (String × String)
  | [], _, _ => []
  | e :: rest, acctKey, itemID =>
      if e.1 = acctKey ∧ e.2 = itemID then rest
      else e :: removeFirstEntry rest acctKey itemID

/-- `removeItemFromChecksumIndex` (part_003, lines 445-479): drop the
item entry from its checksum bucket, deleting the bucket when it
becomes empty and saving the shortened list otherwise. -/
def removeItemFromChecksumIndex (db : DB) (item : DbItem) (acctKey : String) : DB :=
  let list0 := (alookup db.checksums item.checksum).getD []
  let list1 := removeFirstEntry list0 acctKey item.id
  if list1 = [] then { db with checksums := aremove db.checksums item.checksum }
  else { db with checksums := aupsert db.checksums item.checksum list1 }

/-- `saveItem` (part_003, lines 495-571): store the record, register it
with each of its collections, detach the previously stored record from
its old checksum bucket when the checksum changed, and append the entry
to the new checksum bucket unless it is already present. -/
def saveItem (db : DB) (acctKey itemID : String) (item : DbItem) : DB :=
  let savedItem := alookup db.items (acctKey, itemID)
  let db1 := { db with items := aupsert db.items (acctKey, itemID) item }
  let db2 := item.collections.foldl
    (fun d collID => addItemToCollection d acctKey itemID collID) db1
  let db3 :=
    match savedItem with
    | some saved =>
        if saved.checksum ≠ item.checksum then removeItemFromChecksumIndex db2 saved acctKey
        else db2
    | none => db2
  let list0 := (alookup db3.checksums item.checksum).getD []
  if (acctKey, itemID) ∈ list0 then db3
  else { db3 with checksums := aupsert db3.checksums item.checksum (list0 ++ [(acctKey, itemID)]) }

/-- `deleteItem` (part_003, lines 420-443): load the record, detach it
from the checksum index, delete it.  A missing item gob-decodes to a nil
pointer which the source then dereferences; that path is modelled as
`none`. -/
def deleteItem (db : DB) (acctKey itemID : String) : Option DB :=
  match alookup db.items (acctKey, itemID) with
  | none => none
  | some item =>
      let db1 := removeItemFromChecksumIndex db item acctKey
      some { db1 with items := aremove db1.items (acctKey, itemID) }

/-- `itemsWithChecksum` (part_003, lines 690-700). -/
def itemsWithChecksum (db : DB) (checksum : String) : List (String × String) :=
  (alookup db.checksums checksum).getD []

/-- The checksum-bucket well-formedness invariant: bucket keys are
unique, and every stored bucket is nonempty and lists no
(account key, item id) pair twice. -/
def ChecksumWF (cs : List (String × List (String × String))) : Prop :=
  (cs.map Prod.fst).Nodup ∧ ∀ pr ∈ cs, pr.2 ≠ [] ∧ pr.2.Nodup

instance (cs : List (String × List (String × String))) : Decidable (ChecksumWF cs) := by
  unfold ChecksumWF; infer_instance

theorem alookup_mem {kt vt : Type} [DecidableEq kt] (m : List (kt × vt)) (k : kt) (v : vt)
    (h : alookup m k = some v) : (k, v) ∈ m := by
  induction m with
  | nil => simp [alookup] at h
  | cons kw rest ih =>
      obtain ⟨k0, w⟩ := kw
      rw [alookup] at h
      by_cases hk : k0 = k
      · rw [if_pos hk] at h
        injection h with h
        subst hk h
        exact List.mem_cons_self _ _
      · rw [if_neg hk] at h
        exact List.mem_cons_of_mem _ (ih h)

theorem mem_aupsert {kt vt : Type} [DecidableEq kt] (m : List (kt × vt)) (k : kt) (v : vt)
    (pr : kt × vt) (h : pr ∈ aupsert m k v) : pr = (k, v) ∨ pr ∈ m := by
  induction m with
  | nil => simp [aupsert] at h; exact Or.inl h
  | cons kw rest ih =>
      obtain ⟨k0, w⟩ := kw
      rw [aupsert] at h
      by_cases hk : k0 = k
      · rw [if_pos hk] at h
        rcases List.mem_cons.mp h with h | h
        · exact Or.inl h
        · exact Or.inr (List.mem_cons_of_mem _ h)
      · rw [if_neg hk] at h
        rcases List.mem_cons.mp h with h | h
        · exact Or.inr (h ▸ List.mem_cons_self _ _)
        · rcases ih h with h | h
          · exact Or.inl h
          · exact Or.inr (List.mem_cons_of_mem _ h)

theorem aupsert_keys {kt vt : Type} [DecidableEq kt] (m : List (kt × vt)) (k : kt) (v : vt) :
    (aupsert m k v).map Prod.fst =
      (if k ∈ m.map Prod.fst then m.map Prod.fst else m.map Prod.fst ++ [k]) := by
  induction m with
  | nil => simp [aupsert]
  | cons kw rest ih =>
      obtain ⟨k0, w⟩ := kw
      rw [aupsert]
      by_cases hk : k0 = k
      · subst hk
        rw [if_pos rfl]
        simp
      · rw [if_neg hk]
        by_cases hmem : k ∈ rest.map Prod.fst
        · simp only [List.map_cons, ih, if_pos hmem]
          rw [if_pos (List.mem_cons_of_mem _ hmem)]
        · simp only [List.map_cons, ih, if_neg hmem]
          rw [if_neg (by
            intro hcon
            rcases List.mem_cons.mp hcon with hcon | hcon
            · exact hk hcon.symm
            · exact hmem hcon)]
          simp

theorem aupsert_keys_nodup {kt vt : Type} [DecidableEq kt] (m : List (kt × vt)) (k : kt) (v : vt)
    (h : (m.map Prod.fst).Nodup) : ((aupsert m k v).map Prod.fst).Nodup := by
  rw [aupsert_keys]
  by_cases hmem : k ∈ m.map Prod.fst
  · rw [if_pos hmem]; exact h
  · rw [if_neg hmem]
    simp [List.nodup_append, h, hmem]

theorem mem_aremove {kt vt : Type} [DecidableEq kt] (m : List (kt × vt)) (k : kt)
    (pr : kt × vt) (h : pr ∈ aremove m k) : pr ∈ m :=
  List.mem_of_mem_filter h

theorem aremove_keys_nodup {kt vt : Type} [DecidableEq kt] (m : List (kt × vt)) (k : kt)
    (h : (m.map Prod.fst).Nodup) : ((aremove m k).map Prod.fst).Nodup :=
  List.Nodup.sublist (List.Sublist.map Prod.fst (List.filter_sublist m)) h

theorem removeFirstEntry_sublist (l : List (String × String)) (a i : String) :
    (removeFirstEntry l a i).Sublist l := by
  induction l with
  | nil => simp [removeFirstEntry]
  | cons e rest ih =>
      rw [removeFirstEntry]
      by_cases h : e.1 = a ∧ e.2 = i
      · rw [if_pos h]; exact List.sublist_cons_self _ _
      · rw [if_neg h]; exact List.Sublist.cons₂ _ ih

theorem wf_bucket_lookup (cs : List (String × List (String × String)))
    (h : ChecksumWF cs) (k : String) : ((alookup cs k).getD []).Nodup := by
  rcases hl : alookup cs k with _ | b
  · simp
  · simpa using (h.2 (k, b) (alookup_mem cs k b hl)).2

theorem wf_removeItemFromChecksumIndex (db : DB) (item : DbItem) (acctKey : String)
    (h : ChecksumWF db.checksums) :
    ChecksumWF (removeItemFromChecksumIndex db item acctKey).checksums := by
  unfold removeItemFromChecksumIndex
  set list0 := (alookup db.checksums item.checksum).getD [] with hlist0
  set list1 := removeFirstEntry list0 acctKey item.id with hlist1
  by_cases he : list1 = []
  · rw [if_pos he]
    exact ⟨aremove_keys_nodup _ _ h.1, fun pr hpr => h.2 pr (mem_aremove _ _ pr hpr)⟩
  · rw [if_neg he]
    refine ⟨aupsert_keys_nodup _ _ _ h.1, fun pr hpr => ?_⟩
    rcases mem_aupsert _ _ _ pr hpr with hp | hp
    · subst hp
      refine ⟨he, ?_⟩
      exact List.Nodup.sublist (removeFirstEntry_sublist _ _ _) (wf_bucket_lookup _ h _)
    · exact h.2 pr hp

theorem checksums_addItemToCollection (db : DB) (a i c : String) :
    (addItemToCollection db a i c).checksums = db.checksums := rfl

theorem checksums_fold_addItemToCollection (l : List String) (db : DB) (a i : String) :
    (l.foldl (fun d collID => addItemToCollection d a i collID) db).checksums =
      db.checksums := by
  induction l generalizing db with
  | nil => rfl
  | cons c rest ih => rw [List.foldl_cons, ih, checksums_addItemToCollection]

theorem wf_saveItem (db : DB) (acctKey itemID : String) (item : DbItem)
    (h : ChecksumWF db.checksums) :
    ChecksumWF (saveItem db acctKey itemID item).checksums := by
  unfold saveItem
  simp only []
  set db1 : DB := { db with items := aupsert db.items (acctKey, itemID) item } with hdb1
  set db2 := item.collections.foldl
    (fun d collID => addItemToCollection d acctKey itemID collID) db1 with hdb2
  have hcs2 : db2.checksums = db.checksums := by
    rw [hdb2, checksums_fold_addItemToCollection]
  set db3 :=
    match alookup db.items (acctKey, itemID) with
    | some saved =>
        if saved.checksum ≠ item.checksum then removeItemFromChecksumIndex db2 saved acctKey
        else db2
    | none => db2 with hdb3
  have h3 : ChecksumWF db3.checksums := by
    rw [hdb3]
    rcases alookup db.items (acctKey, itemID) with _ | saved
    · rw [hcs2]; exact h
    · simp only []
      by_cases hne : saved.checksum ≠ item.checksum
      · rw [if_pos hne]
        exact wf_removeItemFromChecksumIndex db2 saved acctKey (hcs2 ▸ h)
      · rw [if_neg hne, hcs2]; exact h
  set list0 := (alookup db3.checksums item.checksum).getD [] with hlist0
  by_cases hmem : (acctKey, itemID) ∈ list0
  · rw [if_pos hmem]; exact h3
  · rw [if_neg hmem]
    refine ⟨aupsert_keys_nodup _ _ _ h3.1, fun pr hpr => ?_⟩
    rcases mem_aupsert _ _ _ pr hpr with hp | hp
    · subst hp
      constructor
      · simp
      · have hnd : list0.Nodup := wf_bucket_lookup _ h3 _
        simp [List.nodup_append, hnd, hmem]
    · exact h3.2 pr hp

theorem wf_deleteItem (db : DB) (acctKey itemID : String) (db2 : DB)
    (h : ChecksumWF db.checksums) (hdel : deleteItem db acctKey itemID = some db2) :
    ChecksumWF db2.checksums := by
  unfold deleteItem at hdel
  rcases hit : alookup db.items (acctKey, itemID) with _ | item
  · rw [hit] at hdel; cases hdel
  · rw [hit] at hdel
    simp only [Option.some.injEq] at hdel
    subst hdel
    exact wf_removeItemFromChecksumIndex db item acctKey h

/-- C9: checksum-bucket uniqueness.  When every checksum bucket is
nonempty and duplicate-free (and bucket keys are unique), both
`saveItem` - which detaches the entry from the old bucket on a checksum
change and appends the entry to the new bucket only after checking it is
absent - and `deleteItem` - which removes the entry and deletes the
bucket when it empties - preserve that invariant. -/
theorem checksum_bucket_uniqueness (db : DB) (acctKey itemID : String) (item : DbItem)
    (h : ChecksumWF db.checksums) :
    ChecksumWF (saveItem db acctKey itemID item).checksums ∧
    (∀ db2 : DB, deleteItem db acctKey itemID = some db2 → ChecksumWF db2.checksums) :=
  ⟨wf_saveItem db acctKey itemID item h,
   fun db2 hdel => wf_deleteItem db acctKey itemID db2 h hdel⟩

/-- Witness for C9: a one-item database with a single checksum bucket
satisfies the invariant, and saving a second item with the same content
plus deleting the first preserves it. -/
theorem checksum_bucket_uniqueness_witness :
    ChecksumWF (saveItem
        { items := [(("k", "a"),
            { id := "a", name := "a.jpg", fileName := "a.jpg", filePath := "X/a.jpg",
              collections := ["x"], checksum := "h1", etag := "e1" })],
          collections := [], checksums := [("h1", [("k", "a")])] }
        "k" "b"
        { id := "b", name := "b.jpg", fileName := "b.jpg", filePath := "X/a.jpg",
          collections := ["y"], checksum := "h1", etag := "e2" }).checksums :=
  (checksum_bucket_uniqueness _ "k" "b" _ (by decide)).1



/-! ## Download-and-commit pipeline (part_006: processItem lines 384-509,
downloadAndSaveItem lines 609-789)

The pipeline is embedded as explicit state passing over a state holding
the set of existing files (full paths), the database, and the
`downloadingItem.path` field (empty string when unset or cleared).
Failure of each fallible step (directory creation, filename reservation,
destination-file creation, the three-attempt download loop, the
de-duplication query, loading the same-content item, the manifest
append, `saveItemToCollection` and the final `saveItem`) is injected
through an environment of outcome flags; the downloaded content is
abstracted by its checksum.  EXIF extraction, timestamps and the
pointer-manifest file contents do not affect the claims and are not part
of the state; the in-memory serialisation maps are concurrency and are
not modelled.  The item-name reservation reuses
`reserveUniqueFilename`. -/

/-- Outcomes of the fallible steps of one pipeline run. -/
structure PEnv where
  mkdirOk : Bool
  reserveOk : Bool
  createOk : Bool
  downloadOk3 : Bool
  checksum : String
  dedupQueryOk : Bool
  loadSameOk : Bool
  writeMediaListOk : Bool
  saveToCollOk : Bool
  saveItemOk : Bool
deriving DecidableEq, Repr

/-- Repository state threaded through the pipeline. -/
structure RState where
  fs : List String
  db : DB
  dl : String
deriving DecidableEq, Repr

/-- Set-like file creation (`os.Create` on the path). -/
def fsInsert (fs : List String) (p : String) : List String :=
  if p ∈ fs then fs else p :: fs

/-- File removal (`os.Remove`). -/
def fsRemove (fs : List String) (p : String) : List String :=
  fs.filter (fun q => decide (q ≠ p))

/-- `downloadingItem.remove()`: unlink the in-progress path when set and
clear it. -/
def dlRemove (st : RState) : RState :=
  if st.dl = "" then st else { st with fs := fsRemove st.fs st.dl, dl := "" }

/-- The in-memory `item` value handed to `downloadAndSaveItem`. -/
structure ItemInfo where
  itemID : String
  itemName : String
  etag : String
  fileName : String
  filePath : String
  isNew : Bool
  collections : List String
deriving DecidableEq, Repr

/-- The commit step of `downloadAndSaveItem` (lines 775-788): `saveItem`
the record; on failure remove the physical file (`downloadingItem.remove`)
and report the error, on success clear the in-progress path. -/
def commitItem (env : PEnv) (acctKey itemID : String) (rec : DbItem) (st : RState) :
    Bool × RState :=
  if ¬ env.saveItemOk then (false, dlRemove st)
  else (true, { st with db := saveItem st.db acctKey itemID rec, dl := "" })

/-- The content-dedup step for new items (lines 740-773) followed by the
commit: query the checksum bucket; when the content already exists,
delete the just-downloaded physical copy, point the record at the
canonical file of any same-checksum item, append that path to the
collection manifest and `saveItemToCollection` (which writes a stub item
record), then commit. -/
def dedupAndCommit (env : PEnv) (acctKey collID itemID : String) (dbi : DbItem)
    (st3 : RState) : Bool × RState :=
  if ¬ env.dedupQueryOk then (false, st3)
  else
    match itemsWithChecksum st3.db env.checksum with
    | [] => commitItem env acctKey itemID dbi st3
    | first :: _ =>
        let st4 := dlRemove st3
        if ¬ env.loadSameOk then (false, st4)
        else
          match alookup st4.db.items first with
          | none => (false, st4)
          | some sameContent =>
              if ¬ env.writeMediaListOk then (false, st4)
              else if ¬ env.saveToCollOk then (false, st4)
              else
                commitItem env acctKey itemID { dbi with filePath := sameContent.filePath }
                  { st4 with db := saveItemToCollection st4.db acctKey itemID collID }

/-- `downloadAndSaveItem`: returns whether the call succeeded together
with the final state.  Steps, in source order: record the collection
membership on the in-memory item; create the collection directory;
reserve a unique filename for a new item (creating the placeholder);
set `downloadingItem.path`; the three-attempt download loop (create or
truncate the destination, stream, hash - `downloadOk3` is whether some
of the three attempts succeeded); content de-duplication for new items;
finally the commit. -/
def downloadAndSaveItem (env : PEnv) (repoPath acctKey collID collDirPath : String)
    (it : ItemInfo) (st : RState) : Bool × RState :=
  let collections1 := insertIfAbsent collID it.collections
  if ¬ env.mkdirOk then (false, st)
  else
    let afterReserve : Option (ItemInfo × RState) :=
      if it.isNew then
        if ¬ env.reserveOk then none
        else
          let r := reserveUniqueFilename
            (fun rel => decide (fullPath repoPath rel ∈ st.fs)) collDirPath it.itemName
          let st1 : RState := { st with fs := fsInsert st.fs (fullPath repoPath r.2) }
          some ({ it with
                    fileName := r.1,
                    filePath := repoRelative repoPath (goJoin collDirPath r.1) }, st1)
      else some (it, st)
    match afterReserve with
    | none => (false, st)
    | some (it1, st1) =>
        let dlPath := fullPath repoPath it1.filePath
        let st2 : RState := { st1 with dl := dlPath }
        if ¬ env.createOk then (false, st2)
        else
          let st3 : RState := { st2 with fs := fsInsert st2.fs dlPath }
          if ¬ env.downloadOk3 then (false, st3)
          else
            let dbi : DbItem :=
              { id := it1.itemID, name := it1.itemName, fileName := it1.fileName,
                filePath := it1.filePath, collections := collections1,
                checksum := env.checksum, etag := it1.etag }
            if it1.isNew then dedupAndCommit env acctKey collID it1.itemID dbi st3
            else commitItem env acctKey it1.itemID dbi st3

/-- The new-item branch of `processItem` (lines 424-442): build the
in-memory item with `isNew` set, run `downloadAndSaveItem`, and on error
remove the partially downloaded file recorded in
`downloadingItem.path`. -/
def processItemNew (env : PEnv) (repoPath acctKey collID accountPath collDirName : String)
    (itemID itemName etag : String) (st : RState) : Bool × RState :=
  let collDirPath := repoRelative repoPath (goJoin accountPath collDirName)
  let it : ItemInfo :=
    { itemID := itemID, itemName := itemName, etag := etag,
      fileName := itemName,
      filePath := repoRelative repoPath (goJoin (goJoin accountPath collDirName) itemName),
      isNew := true, collections := [collID] }
  let r := downloadAndSaveItem env repoPath acctKey collID collDirPath it st
  if r.1 then r else (false, dlRemove r.2)

/-- The re-download branch of `processItem` for an existing item found
corrupted or modified remotely (lines 483-505): the stored file path,
file name and collection set are preserved, `isNew` stays false, and on
error the partially downloaded file is removed. -/
def redownloadExistingItem (env : PEnv) (repoPath acctKey collID collDirPath : String)
    (loadedItem : DbItem) (itemName etag : String) (st : RState) : Bool × RState :=
  let it : ItemInfo :=
    { itemID := loadedItem.id, itemName := itemName, etag := etag,
      fileName := loadedItem.fileName, filePath := loadedItem.filePath,
      isNew := false, collections := loadedItem.collections }
  let r := downloadAndSaveItem env repoPath acctKey collID collDirPath it st
  if r.1 then r else (false, dlRemove r.2)

/-! ### Supporting lemmas for the pipeline theorems -/

theorem mem_fsInsert_self (fs : List String) (p : String) : p ∈ fsInsert fs p := by
  unfold fsInsert
  by_cases h : p ∈ fs
  · rw [if_pos h]; exact h
  · rw [if_neg h]; exact List.mem_cons_self _ _

theorem fsInsert_idem (fs : List String) (p : String) :
    fsInsert (fsInsert fs p) p = fsInsert fs p := by
  unfold fsInsert
  by_cases h : p ∈ fs
  · simp [h]
  · simp [h]

theorem fsRemove_eq_of_not_mem (fs : List String) (p : String) (h : p ∉ fs) :
    fsRemove fs p = fs := by
  unfold fsRemove
  apply List.filter_eq_self.mpr
  intro a ha
  simp only [decide_eq_true_eq]
  intro hap
  exact h (hap ▸ ha)

theorem fsRemove_fsInsert_of_not_mem (fs : List String) (p : String) (h : p ∉ fs) :
    fsRemove (fsInsert fs p) p = fs := by
  unfold fsInsert
  rw [if_neg h]
  show List.filter (fun q => decide (q ≠ p)) (p :: fs) = fs
  rw [List.filter_cons_of_neg (by simp)]
  exact fsRemove_eq_of_not_mem fs p h

theorem not_mem_fsRemove (fs : List String) (p : String) : p ∉ fsRemove fs p := by
  unfold fsRemove
  intro h
  have := List.of_mem_filter h
  simp at this

theorem dlRemove_of_empty (st : RState) (h : st.dl = "") : dlRemove st = st := by
  unfold dlRemove
  rw [if_pos h]

theorem alookup_aupsert_self {kt vt : Type} [DecidableEq kt] (m : List (kt × vt))
    (k : kt) (v : vt) : alookup (aupsert m k v) k = some v := by
  induction m with
  | nil => simp [aupsert, alookup]
  | cons kw rest ih =>
      obtain ⟨k0, w⟩ := kw
      rw [aupsert]
      by_cases hk : k0 = k
      · rw [if_pos hk, alookup, if_pos rfl]
      · rw [if_neg hk, alookup, if_neg hk]
        exact ih

theorem insertIfAbsent_of_mem (x : String) (xs : List String) (h : x ∈ xs) :
    insertIfAbsent x xs = xs := by
  unfold insertIfAbsent
  rw [if_pos h]

theorem dbItem_eta_collections (it : DbItem) :
    ({ it with collections := it.collections } : DbItem) = it := rfl

theorem addItemToCollection_items_self (db : DB) (a i c : String) (it : DbItem)
    (h : alookup db.items (a, i) = some it) (hc : c ∈ it.collections) :
    alookup (addItemToCollection db a i c).items (a, i) = some it := by
  unfold addItemToCollection
  simp only [h, Option.getD_some]
  rw [insertIfAbsent_of_mem c it.collections hc]
  show alookup (aupsert db.items (a, i) { it with collections := it.collections }) (a, i) =
    some it
  rw [dbItem_eta_collections]
  exact alookup_aupsert_self _ _ _

theorem foldl_addItemToCollection_items (a i : String) (it : DbItem) :
    ∀ (l : List String) (db : DB),
      alookup db.items (a, i) = some it → (∀ c ∈ l, c ∈ it.collections) →
      alookup ((l.foldl (fun d c => addItemToCollection d a i c) db)).items (a, i) = some it := by
  intro l
  induction l with
  | nil => intro db h _; exact h
  | cons c rest ih =>
      intro db h hl
      rw [List.foldl_cons]
      exact ih _ (addItemToCollection_items_self db a i c it h (hl c (List.mem_cons_self _ _)))
        (fun x hx => hl x (List.mem_cons_of_mem _ hx))

theorem removeItemFromChecksumIndex_items (db : DB) (x : DbItem) (a : String) :
    (removeItemFromChecksumIndex db x a).items = db.items := by
  unfold removeItemFromChecksumIndex
  dsimp only
  split <;> rfl

theorem saveItem_items_self (db : DB) (a i : String) (it : DbItem) :
    alookup (saveItem db a i it).items (a, i) = some it := by
  unfold saveItem
  have hbase : alookup (aupsert db.items (a, i) it) (a, i) = some it :=
    alookup_aupsert_self _ _ _
  have hfold := foldl_addItemToCollection_items a i it it.collections
    { db with items := aupsert db.items (a, i) it } hbase (fun c hc => hc)
  set db2 := it.collections.foldl (fun d c => addItemToCollection d a i c)
    { db with items := aupsert db.items (a, i) it } with hdb2
  rcases hsv : alookup db.items (a, i) with _ | saved
  · simp only [hsv]
    split <;> exact hfold
  · simp only [hsv]
    by_cases hne : saved.checksum ≠ it.checksum
    · simp only [if_pos hne]
      split <;> simp only [removeItemFromChecksumIndex_items] <;> exact hfold
    · simp only [if_neg hne]
      split <;> exact hfold

theorem saveItemToCollection_items_stub (db : DB) (a i c : String)
    (h : alookup db.items (a, i) = none) :
    alookup (saveItemToCollection db a i c).items (a, i) =
      some { stubDbItem with collections := [c] } := by
  unfold saveItemToCollection addItemToCollection
  simp only [h, Option.getD_none]
  have hins : insertIfAbsent c stubDbItem.collections = [c] := by
    unfold insertIfAbsent stubDbItem
    simp
  rw [hins]
  exact alookup_aupsert_self _ _ _

theorem redownload_existing_atomic (env : PEnv)
    (repoPath acctKey collID collDirPath itemName etag : String)
    (loadedItem : DbItem) (st : RState)
    (hdl : st.dl = "")
    (hpne : fullPath repoPath loadedItem.filePath ≠ "") :
    ((redownloadExistingItem env repoPath acctKey collID collDirPath
        loadedItem itemName etag st).1 = true →
      (∃ rec, alookup (redownloadExistingItem env repoPath acctKey collID collDirPath
          loadedItem itemName etag st).2.db.items (acctKey, loadedItem.id) = some rec ∧
        rec.filePath = loadedItem.filePath) ∧
      fullPath repoPath loadedItem.filePath ∈ (redownloadExistingItem env repoPath acctKey
        collID collDirPath loadedItem itemName etag st).2.fs) ∧
    ((redownloadExistingItem env repoPath acctKey collID collDirPath
        loadedItem itemName etag st).1 = false →
      (redownloadExistingItem env repoPath acctKey collID collDirPath
        loadedItem itemName etag st).2.db = st.db ∧
      ((redownloadExistingItem env repoPath acctKey collID collDirPath
          loadedItem itemName etag st).2.fs = st.fs ∨
        fullPath repoPath loadedItem.filePath ∉ (redownloadExistingItem env repoPath acctKey
          collID collDirPath loadedItem itemName etag st).2.fs)) := by
  by_cases hm : env.mkdirOk = true
  · by_cases hcr : env.createOk = true
    · by_cases hdn : env.downloadOk3 = true
      · by_cases hs : env.saveItemOk = true
        · -- full success: the record is committed and the file is on disk
          have hcalc : redownloadExistingItem env repoPath acctKey collID collDirPath
              loadedItem itemName etag st =
            (true,
              { fs := fsInsert st.fs (fullPath repoPath loadedItem.filePath),
                db := saveItem st.db acctKey loadedItem.id
                  { id := loadedItem.id, name := itemName, fileName := loadedItem.fileName,
                    filePath := loadedItem.filePath,
                    collections := insertIfAbsent collID loadedItem.collections,
                    checksum := env.checksum, etag := etag },
                dl := "" }) := by
            simp only [redownloadExistingItem, downloadAndSaveItem, commitItem,
              hm, hcr, hdn, hs]
            simp
          rw [hcalc]
          constructor
          · intro _
            refine ⟨⟨_, saveItem_items_self _ _ _ _, rfl⟩, ?_⟩
            exact mem_fsInsert_self _ _
          · intro hfalse
            simp at hfalse
        · -- saveItem fails: the file is removed before returning
          have hcalc : redownloadExistingItem env repoPath acctKey collID collDirPath
              loadedItem itemName etag st =
            (false,
              { fs := fsRemove (fsInsert st.fs (fullPath repoPath loadedItem.filePath))
                  (fullPath repoPath loadedItem.filePath),
                db := st.db, dl := "" }) := by
            simp only [redownloadExistingItem, downloadAndSaveItem, commitItem,
              hm, hcr, hdn, hs]
            simp [dlRemove, dlRemove_of_empty, hpne]
          rw [hcalc]
          constructor
          · intro htru; simp at htru
          · intro _
            exact ⟨rfl, Or.inr (not_mem_fsRemove _ _)⟩
      · -- all three download attempts fail: processItem removes the file
        have hcalc : redownloadExistingItem env repoPath acctKey collID collDirPath
            loadedItem itemName etag st =
          (false,
            { fs := fsRemove (fsInsert st.fs (fullPath repoPath loadedItem.filePath))
                (fullPath repoPath loadedItem.filePath),
              db := st.db, dl := "" }) := by
          simp only [redownloadExistingItem, downloadAndSaveItem, hm, hcr, hdn]
          simp [dlRemove, hpne]
        rw [hcalc]
        constructor
        · intro htru; simp at htru
        · intro _
          exact ⟨rfl, Or.inr (not_mem_fsRemove _ _)⟩
    · -- opening the destination file fails: nothing was created
      have hcalc : redownloadExistingItem env repoPath acctKey collID collDirPath
          loadedItem itemName etag st =
        (false, { fs := fsRemove st.fs (fullPath repoPath loadedItem.filePath),
                  db := st.db, dl := "" }) := by
        simp only [redownloadExistingItem, downloadAndSaveItem, hm, hcr]
        simp [dlRemove, hpne]
      rw [hcalc]
      constructor
      · intro htru; simp at htru
      · intro _
        exact ⟨rfl, Or.inr (not_mem_fsRemove _ _)⟩
  · -- directory creation fails: the state is untouched
    have hcalc : redownloadExistingItem env repoPath acctKey collID collDirPath
        loadedItem itemName etag st = (false, st) := by
      simp only [redownloadExistingItem, downloadAndSaveItem, hm]
      simp [dlRemove_of_empty st hdl]
    rw [hcalc]
    constructor
    · intro htru; simp at htru
    · intro _
      exact ⟨rfl, Or.inl rfl⟩

theorem process_item_new_atomic (env : PEnv)
    (repoPath acctKey collID accountPath collDirName itemID itemName etag y : String)
    (st : RState)
    (hdl : st.dl = "")
    (hnew : alookup st.db.items (acctKey, itemID) = none)
    (hfiles : ∀ k it2, alookup st.db.items k = some it2 →
      fullPath repoPath it2.filePath ∈ st.fs)
    (hfind : (reserveCandidates itemName 998 2 itemName).find?
        (fun c => !(decide (fullPath repoPath
          (goJoin (repoRelative repoPath (goJoin accountPath collDirName)) c) ∈ st.fs))) =
      some y)
    (hcoh : repoRelative repoPath
        (goJoin (repoRelative repoPath (goJoin accountPath collDirName)) y) =
      goJoin (repoRelative repoPath (goJoin accountPath collDirName)) y)
    (hPne : fullPath repoPath
        (goJoin (repoRelative repoPath (goJoin accountPath collDirName)) y) ≠ "") :
    ((processItemNew env repoPath acctKey collID accountPath collDirName
        itemID itemName etag st).1 = true →
      ∃ rec, alookup (processItemNew env repoPath acctKey collID accountPath collDirName
          itemID itemName etag st).2.db.items (acctKey, itemID) = some rec ∧
        fullPath repoPath rec.filePath ∈ (processItemNew env repoPath acctKey collID
          accountPath collDirName itemID itemName etag st).2.fs) ∧
    ((processItemNew env repoPath acctKey collID accountPath collDirName
        itemID itemName etag st).1 = false →
      (processItemNew env repoPath acctKey collID accountPath collDirName
        itemID itemName etag st).2.fs = st.fs ∧
      (alookup (processItemNew env repoPath acctKey collID accountPath collDirName
          itemID itemName etag st).2.db.items (acctKey, itemID) = none ∨
       alookup (processItemNew env repoPath acctKey collID accountPath collDirName
          itemID itemName etag st).2.db.items (acctKey, itemID) =
         some { stubDbItem with collections := [collID] })) := by
  set collDirPath := repoRelative repoPath (goJoin accountPath collDirName) with hcd
  have hres : reserveUniqueFilename (fun rel => decide (fullPath repoPath rel ∈ st.fs))
      collDirPath itemName = (y, goJoin collDirPath y) :=
    reserveLoop_find _ collDirPath itemName 998 2 itemName (goJoin collDirPath itemName) y hfind
  have hPfree : fullPath repoPath (goJoin collDirPath y) ∉ st.fs := by
    have h2 := List.find?_some hfind
    simpa using h2
  by_cases hm : env.mkdirOk = true
  · by_cases hrv : env.reserveOk = true
    · by_cases hcr : env.createOk = true
      · by_cases hdn : env.downloadOk3 = true
        · by_cases hq : env.dedupQueryOk = true
          · rcases hbk : itemsWithChecksum st.db env.checksum with _ | ⟨first, restBucket⟩
            · -- unique content: commit directly
              by_cases hs : env.saveItemOk = true
              · have hcalc : processItemNew env repoPath acctKey collID accountPath
                    collDirName itemID itemName etag st =
                  (true,
                    { fs := fsInsert st.fs (fullPath repoPath (goJoin collDirPath y)),
                      db := saveItem st.db acctKey itemID
                        { id := itemID, name := itemName, fileName := y,
                          filePath := goJoin collDirPath y,
                          collections := insertIfAbsent collID [collID],
                          checksum := env.checksum, etag := etag },
                      dl := "" }) := by
                  simp only [processItemNew, downloadAndSaveItem, dedupAndCommit, commitItem,
                    hm, hrv, hcr, hdn, hq, hs, hres, hcoh, hbk]
                  simp [fsInsert_idem, hbk]
                rw [hcalc]
                constructor
                · intro _
                  refine ⟨_, saveItem_items_self _ _ _ _, ?_⟩
                  exact mem_fsInsert_self _ _
                · intro hfalse; simp at hfalse
              · have hcalc : processItemNew env repoPath acctKey collID accountPath
                    collDirName itemID itemName etag st =
                  (false, { fs := st.fs, db := st.db, dl := "" }) := by
                  simp only [processItemNew, downloadAndSaveItem, dedupAndCommit, commitItem,
                    hm, hrv, hcr, hdn, hq, hs, hres, hcoh, hbk]
                  simp [dlRemove, hPne, fsInsert_idem,
                    fsRemove_fsInsert_of_not_mem _ _ hPfree, hbk]
                rw [hcalc]
                constructor
                · intro htru; simp at htru
                · intro _; exact ⟨rfl, Or.inl hnew⟩
            · -- the content already exists in the repository
              by_cases hl : env.loadSameOk = true
              · rcases hsc : alookup st.db.items first with _ | sameContent
                · have hcalc : processItemNew env repoPath acctKey collID accountPath
                      collDirName itemID itemName etag st =
                    (false, { fs := st.fs, db := st.db, dl := "" }) := by
                    simp only [processItemNew, downloadAndSaveItem, dedupAndCommit, commitItem,
                      hm, hrv, hcr, hdn, hq, hl, hres, hcoh, hbk]
                    simp [dlRemove, hPne, fsInsert_idem,
                      fsRemove_fsInsert_of_not_mem _ _ hPfree, hsc, hbk]
                  rw [hcalc]
                  constructor
                  · intro htru; simp at htru
                  · intro _; exact ⟨rfl, Or.inl hnew⟩
                · by_cases hw : env.writeMediaListOk = true
                  · by_cases hsv : env.saveToCollOk = true
                    · by_cases hs : env.saveItemOk = true
                      · -- dedup then successful commit
                        have hcalc : processItemNew env repoPath acctKey collID accountPath
                            collDirName itemID itemName etag st =
                          (true,
                            { fs := st.fs,
                              db := saveItem (saveItemToCollection st.db acctKey itemID collID)
                                acctKey itemID
                                { id := itemID, name := itemName, fileName := y,
                                  filePath := sameContent.filePath,
                                  collections := insertIfAbsent collID [collID],
                                  checksum := env.checksum, etag := etag },
                              dl := "" }) := by
                          simp only [processItemNew, downloadAndSaveItem, dedupAndCommit,
                            commitItem, hm, hrv, hcr, hdn, hq, hl, hw, hsv, hs, hres, hcoh, hbk]
                          simp [dlRemove, hPne, fsInsert_idem,
                            fsRemove_fsInsert_of_not_mem _ _ hPfree, hsc, hbk]
                        rw [hcalc]
                        constructor
                        · intro _
                          refine ⟨_, saveItem_items_self _ _ _ _, ?_⟩
                          exact hfiles first sameContent hsc
                        · intro hfalse; simp at hfalse
                      · -- dedup succeeded but the final commit fails: a stub
                        -- membership record remains in the index
                        have hcalc : processItemNew env repoPath acctKey collID accountPath
                            collDirName itemID itemName etag st =
                          (false,
                            { fs := st.fs,
                              db := saveItemToCollection st.db acctKey itemID collID,
                              dl := "" }) := by
                          simp only [processItemNew, downloadAndSaveItem, dedupAndCommit,
                            commitItem, hm, hrv, hcr, hdn, hq, hl, hw, hsv, hs, hres, hcoh, hbk]
                          simp [dlRemove, hPne, fsInsert_idem,
                            fsRemove_fsInsert_of_not_mem _ _ hPfree, hsc, hbk]
                        rw [hcalc]
                        constructor
                        · intro htru; simp at htru
                        · intro _
                          exact ⟨rfl, Or.inr (saveItemToCollection_items_stub _ _ _ _ hnew)⟩
                    · have hcalc : processItemNew env repoPath acctKey collID accountPath
                          collDirName itemID itemName etag st =
                        (false, { fs := st.fs, db := st.db, dl := "" }) := by
                        simp only [processItemNew, downloadAndSaveItem, dedupAndCommit,
                          commitItem, hm, hrv, hcr, hdn, hq, hl, hw, hsv, hres, hcoh, hbk]
                        simp [dlRemove, hPne, fsInsert_idem,
                          fsRemove_fsInsert_of_not_mem _ _ hPfree, hsc, hbk]
                      rw [hcalc]
                      constructor
                      · intro htru; simp at htru
                      · intro _; exact ⟨rfl, Or.inl hnew⟩
                  · have hcalc : processItemNew env repoPath acctKey collID accountPath
                        collDirName itemID itemName etag st =
                      (false, { fs := st.fs, db := st.db, dl := "" }) := by
                      simp only [processItemNew, downloadAndSaveItem, dedupAndCommit,
                        commitItem, hm, hrv, hcr, hdn, hq, hl, hw, hres, hcoh, hbk]
                      simp [dlRemove, hPne, fsInsert_idem,
                        fsRemove_fsInsert_of_not_mem _ _ hPfree, hsc, hbk]
                    rw [hcalc]
                    constructor
                    · intro htru; simp at htru
                    · intro _; exact ⟨rfl, Or.inl hnew⟩
              · have hcalc : processItemNew env repoPath acctKey collID accountPath
                    collDirName itemID itemName etag st =
                  (false, { fs := st.fs, db := st.db, dl := "" }) := by
                  simp only [processItemNew, downloadAndSaveItem, dedupAndCommit, commitItem,
                    hm, hrv, hcr, hdn, hq, hl, hres, hcoh, hbk]
                  simp [dlRemove, hPne, fsInsert_idem,
                    fsRemove_fsInsert_of_not_mem _ _ hPfree, hbk]
                rw [hcalc]
                constructor
                · intro htru; simp at htru
                · intro _; exact ⟨rfl, Or.inl hnew⟩
          · -- the de-duplication query fails; the file is cleaned up by processItem
            have hcalc : processItemNew env repoPath acctKey collID accountPath
                collDirName itemID itemName etag st =
              (false, { fs := st.fs, db := st.db, dl := "" }) := by
              simp only [processItemNew, downloadAndSaveItem, dedupAndCommit,
                hm, hrv, hcr, hdn, hq, hres, hcoh]
              simp [dlRemove, hPne, fsInsert_idem, fsRemove_fsInsert_of_not_mem _ _ hPfree]
            rw [hcalc]
            constructor
            · intro htru; simp at htru
            · intro _; exact ⟨rfl, Or.inl hnew⟩
        · have hcalc : processItemNew env repoPath acctKey collID accountPath
              collDirName itemID itemName etag st =
            (false, { fs := st.fs, db := st.db, dl := "" }) := by
            simp only [processItemNew, downloadAndSaveItem, hm, hrv, hcr, hdn, hres, hcoh]
            simp [dlRemove, hPne, fsInsert_idem, fsRemove_fsInsert_of_not_mem _ _ hPfree]
          rw [hcalc]
          constructor
          · intro htru; simp at htru
          · intro _; exact ⟨rfl, Or.inl hnew⟩
      · -- opening the destination fails after the placeholder was reserved;
        -- the cleanup removes the placeholder
        have hcalc : processItemNew env repoPath acctKey collID accountPath
            collDirName itemID itemName etag st =
          (false, { fs := st.fs, db := st.db, dl := "" }) := by
          simp only [processItemNew, downloadAndSaveItem, hm, hrv, hcr, hres, hcoh]
          simp [dlRemove, hPne, fsRemove_fsInsert_of_not_mem _ _ hPfree]
        rw [hcalc]
        constructor
        · intro htru; simp at htru
        · intro _; exact ⟨rfl, Or.inl hnew⟩
    · have hcalc : processItemNew env repoPath acctKey collID accountPath
          collDirName itemID itemName etag st = (false, st) := by
        simp only [processItemNew, downloadAndSaveItem, hm, hrv]
        simp [dlRemove_of_empty st hdl]
      rw [hcalc]
      constructor
      · intro htru; simp at htru
      · intro _; exact ⟨rfl, Or.inl hnew⟩
  · have hcalc : processItemNew env repoPath acctKey collID accountPath
        collDirName itemID itemName etag st = (false, st) := by
      simp only [processItemNew, downloadAndSaveItem, hm]
      simp [dlRemove_of_empty st hdl]
    rw [hcalc]
    constructor
    · intro htru; simp at htru
    · intro _; exact ⟨rfl, Or.inl hnew⟩

/-- C1 amended: download-and-commit atomicity.  For a new item - under
the side conditions that the fresh `downloadingItem` has no recorded
path, the name reservation finds a free candidate (the non-exhausted
case), the reserved repo-relative path is not altered by the
repo-relative conversion and is nonempty, and every indexed item has its
canonical file on disk - the pipeline either commits the item record
with a file on disk at its file-path, or on failure unlinks the
downloaded file, restores the file set, and leaves no index entry for
the item EXCEPT that, when the failure is the final `saveItem` after a
successful de-duplication attach, a stub membership record (zero item
with only the collection membership) remains.  For an existing item
being re-downloaded, success commits the record with the preserved
file-path and the file on disk, and failure leaves the database
untouched and either leaves the file set unchanged (failure before the
destination file was created) or unlinks the file at the item
file-path. -/
theorem download_commit_no_half_saved :
    (∀ (env : PEnv)
       (repoPath acctKey collID accountPath collDirName itemID itemName etag y : String)
       (st : RState),
      st.dl = "" →
      alookup st.db.items (acctKey, itemID) = none →
      (∀ k it2, alookup st.db.items k = some it2 →
        fullPath repoPath it2.filePath ∈ st.fs) →
      (reserveCandidates itemName 998 2 itemName).find?
          (fun c => !(decide (fullPath repoPath
            (goJoin (repoRelative repoPath (goJoin accountPath collDirName)) c) ∈ st.fs))) =
        some y →
      repoRelative repoPath
          (goJoin (repoRelative repoPath (goJoin accountPath collDirName)) y) =
        goJoin (repoRelative repoPath (goJoin accountPath collDirName)) y →
      fullPath repoPath
          (goJoin (repoRelative repoPath (goJoin accountPath collDirName)) y) ≠ "" →
      ((processItemNew env repoPath acctKey collID accountPath collDirName
          itemID itemName etag st).1 = true →
        ∃ rec, alookup (processItemNew env repoPath acctKey collID accountPath collDirName
            itemID itemName etag st).2.db.items (acctKey, itemID) = some rec ∧
          fullPath repoPath rec.filePath ∈ (processItemNew env repoPath acctKey collID
            accountPath collDirName itemID itemName etag st).2.fs) ∧
      ((processItemNew env repoPath acctKey collID accountPath collDirName
          itemID itemName etag st).1 = false →
        (processItemNew env repoPath acctKey collID accountPath collDirName
          itemID itemName etag st).2.fs = st.fs ∧
        (alookup (processItemNew env repoPath acctKey collID accountPath collDirName
            itemID itemName etag st).2.db.items (acctKey, itemID) = none ∨
         alookup (processItemNew env repoPath acctKey collID accountPath collDirName
            itemID itemName etag st).2.db.items (acctKey, itemID) =
           some { stubDbItem with collections := [collID] }))) ∧
    (∀ (env : PEnv) (repoPath acctKey collID collDirPath itemName etag : String)
       (loadedItem : DbItem) (st : RState),
      st.dl = "" →
      fullPath repoPath loadedItem.filePath ≠ "" →
      ((redownloadExistingItem env repoPath acctKey collID collDirPath
          loadedItem itemName etag st).1 = true →
        (∃ rec, alookup (redownloadExistingItem env repoPath acctKey collID collDirPath
            loadedItem itemName etag st).2.db.items (acctKey, loadedItem.id) = some rec ∧
          rec.filePath = loadedItem.filePath) ∧
        fullPath repoPath loadedItem.filePath ∈ (redownloadExistingItem env repoPath acctKey
          collID collDirPath loadedItem itemName etag st).2.fs) ∧
      ((redownloadExistingItem env repoPath acctKey collID collDirPath
          loadedItem itemName etag st).1 = false →
        (redownloadExistingItem env repoPath acctKey collID collDirPath
          loadedItem itemName etag st).2.db = st.db ∧
        ((redownloadExistingItem env repoPath acctKey collID collDirPath
            loadedItem itemName etag st).2.fs = st.fs ∨
          fullPath repoPath loadedItem.filePath ∉ (redownloadExistingItem env repoPath
            acctKey collID collDirPath loadedItem itemName etag st).2.fs))) := by
  constructor
  · intro env repoPath acctKey collID accountPath collDirName itemID itemName etag y st
      hdl hnew hfiles hfind hcoh hPne
    exact process_item_new_atomic env repoPath acctKey collID accountPath collDirName
      itemID itemName etag y st hdl hnew hfiles hfind hcoh hPne
  · intro env repoPath acctKey collID collDirPath itemName etag loadedItem st hdl hpne
    exact redownload_existing_atomic env repoPath acctKey collID collDirPath itemName etag
      loadedItem st hdl hpne

/-- Failure environment for the stub-record scenario: every step
succeeds except the final `saveItem`; the downloaded content hashes to
h1, which already exists in the repository. -/
def ceEnv : PEnv :=
  { mkdirOk := true, reserveOk := true, createOk := true, downloadOk3 := true,
    checksum := "h1", dedupQueryOk := true, loadSameOk := true,
    writeMediaListOk := true, saveToCollOk := true, saveItemOk := false }

/-- The committed item that already owns the content h1. -/
def ceItemA : DbItem :=
  { id := "a", name := "a.jpg", fileName := "a.jpg", filePath := "X/a.jpg",
    collections := ["x"], checksum := "h1", etag := "e1" }

/-- Starting state for the stub-record scenario. -/
def ceSt : RState :=
  { fs := ["r/X/a.jpg"],
    db := { items := [(("k", "a"), ceItemA)], collections := [],
            checksums := [("h1", [("k", "a")])] },
    dl := "" }

/-- C1 counterexample: processing a NEW item whose content already
exists in the repository, with every step succeeding except the final
`saveItem`, returns an error with the downloaded file removed - but a
stub index entry for the item remains (written by
`saveItemToCollection` during the de-duplication attach), contradicting
the claim that for a new item no index entry exists on failure. -/
theorem download_commit_no_half_saved_counterexample :
    (processItemNew ceEnv "r" "k" "y" "acct" "Y" "b" "b.jpg" "e2" ceSt).1 = false ∧
    (processItemNew ceEnv "r" "k" "y" "acct" "Y" "b" "b.jpg" "e2" ceSt).2.fs = ceSt.fs ∧
    alookup ceSt.db.items ("k", "b") = none ∧
    alookup (processItemNew ceEnv "r" "k" "y" "acct" "Y" "b" "b.jpg" "e2" ceSt).2.db.items
      ("k", "b") = some { stubDbItem with collections := ["y"] } ∧
    some { stubDbItem with collections := ["y"] } ≠ (none : Option DbItem) := by
  refine ⟨?_, ?_, ?_, ?_, ?_⟩ <;> decide

/-- All-success environment for the witness run. -/
def wEnv : PEnv :=
  { mkdirOk := true, reserveOk := true, createOk := true, downloadOk3 := true,
    checksum := "h9", dedupQueryOk := true, loadSameOk := true,
    writeMediaListOk := true, saveToCollOk := true, saveItemOk := true }

/-- Empty starting state for the witness run. -/
def wSt : RState :=
  { fs := [], db := { items := [], collections := [], checksums := [] }, dl := "" }

/-- Witness for the amended C1: a successful run over an empty
repository commits the new item with its file on disk. -/
theorem download_commit_no_half_saved_witness :
    ∃ rec, alookup (processItemNew wEnv "r" "k" "x" "acct" "A" "p" "p.jpg" "e" wSt).2.db.items
        ("k", "p") = some rec ∧
      fullPath "r" rec.filePath ∈
        (processItemNew wEnv "r" "k" "x" "acct" "A" "p" "p.jpg" "e" wSt).2.fs :=
  (download_commit_no_half_saved.1 wEnv "r" "k" "x" "acct" "A" "p" "p.jpg" "e" "p.jpg" wSt
    rfl rfl
    (by intro k it2 h; simp [wSt, alookup] at h)
    (by decide) (by decide) (by decide)).1 (by decide)

/-- All-success environment for the shared-checksum scenario: the
re-downloaded content hashes to h1. -/
def scEnv : PEnv :=
  { mkdirOk := true, reserveOk := true, createOk := true, downloadOk3 := true,
    checksum := "h1", dedupQueryOk := true, loadSameOk := true,
    writeMediaListOk := true, saveToCollOk := true, saveItemOk := true }

/-- Item a, canonical holder of content h1. -/
def scItemA : DbItem :=
  { id := "a", name := "a.jpg", fileName := "a.jpg", filePath := "X/a.jpg",
    collections := ["x"], checksum := "h1", etag := "e1" }

/-- Item b, currently holding distinct content h2 at its own path. -/
def scItemB : DbItem :=
  { id := "b", name := "b.jpg", fileName := "b.jpg", filePath := "Y/b.jpg",
    collections := ["y"], checksum := "h2", etag := "e1" }

/-- Starting state for the shared-checksum scenario: both items
committed with their files on disk. -/
def scSt : RState :=
  { fs := ["r/X/a.jpg", "r/Y/b.jpg"],
    db := { items := [(("k", "a"), scItemA), (("k", "b"), scItemB)], collections := [],
            checksums := [("h1", [("k", "a")]), ("h2", [("k", "b")])] },
    dl := "" }

/-- C2: re-downloading the EXISTING item b after a remote edit that
makes its content identical to item a (checksum h1) commits without any
de-duplication check - the dedup branch runs only for new items - so the
h1 bucket ends up listing both items while their file-paths differ,
violating the shared-content canonical-path invariant that the source
itself asserts ("they should all point to the same file path", part_006
line 759). -/
theorem shared_checksum_paths_diverge :
    (redownloadExistingItem scEnv "r" "k" "y" "Y" scItemB "b.jpg" "e2" scSt).1 = true ∧
    itemsWithChecksum
      (redownloadExistingItem scEnv "r" "k" "y" "Y" scItemB "b.jpg" "e2" scSt).2.db "h1" =
      [("k", "a"), ("k", "b")] ∧
    Option.map DbItem.filePath
      (alookup (redownloadExistingItem scEnv "r" "k" "y" "Y" scItemB "b.jpg" "e2"
        scSt).2.db.items ("k", "a")) = some "X/a.jpg" ∧
    Option.map DbItem.filePath
      (alookup (redownloadExistingItem scEnv "r" "k" "y" "Y" scItemB "b.jpg" "e2"
        scSt).2.db.items ("k", "b")) = some "Y/b.jpg" ∧
    ("X/a.jpg" : String) ≠ "Y/b.jpg" := by
  refine ⟨?_, ?_, ?_, ?_, ?_⟩ <;> decide

end Photobak
